import Mathlib

/-!
Verification development for the organization engine of `paranoia.py`
(profMagija/paranoia-creator).

The shallow embedding below models `_create_orga` (schema validation,
randomized assignment generation, table assembly) and the persistence
codec used by `_do_organize` / `print` (`json.dumps` + `b64encode` on
write, `b64decode` + `json.loads` on read).

Randomness: the Python code draws from the global `random` module
(`shuffle`, `sample`, `choices`).  Each draw is modelled by an oracle
(`Rand`) supplying the indices the library would have chosen; the
modelled primitives validate the oracle data and fall back to a fixed
valid choice when the oracle data is ill-formed, so every theorem below
quantifies over all possible random outcomes.
-/

namespace Paranoia

/-- A cell of the organization table: Python table rows mix `int` ids with
`str` values. -/
inductive Cell where
  | int (n : Int)
  | str (s : String)
deriving DecidableEq, Repr

/-- The organization table as decoded or produced: a list of rows of cells,
mirroring the nested Python lists. -/
abbrev PyTable := List (List Cell)

/-- Field declaration, from the `DataField` dataclass of `paranoia.py`. -/
structure DataField where
  name : String
  is_player : Bool
  can_repeat : Bool
  can_skip : Bool
deriving DecidableEq, Repr

/-- Errors of an organization run.  `validationError` models a deliberate
`_error_out` call (red message, exit code 2); `pythonException` models an
uncaught Python exception (`IndexError`, `ValueError`, `AssertionError`)
escaping as a traceback. -/
inductive OrgaError where
  | validationError (msg : String)
  | pythonException (nm : String)
deriving DecidableEq, Repr

/-- Oracle for the random draws of one organization run: `idPerm` and
`playerPerm` are the index permutations chosen by the two
`random.shuffle` calls at lines 107 and 110; `fieldSel i` the indices
chosen by `random.sample` or `random.choices` for the field at position
`i`; `fieldPerm i` the permutation chosen by `random.shuffle` at line 126
for the field at position `i`. -/
structure Rand where
  idPerm : List Nat
  playerPerm : List Nat
  fieldSel : Nat → List Nat
  fieldPerm : Nat → List Nat

/-- The trivial oracle (all index lists empty); every modelled primitive
falls back to its deterministic default on it. -/
def rand0 : Rand := ⟨[], [], fun _ => [], fun _ => []⟩

/-- Model of `random.shuffle l`: the oracle names the permutation by the
list of source indices; if the named rearrangement is not a permutation
of `l`, the identity arrangement is used instead.  Hence the result is
always some permutation of `l`, exactly as for the real `shuffle`. -/
def applyPerm [DecidableEq α] (pi : List Nat) (l : List α) : List α :=
  let l2 := pi.filterMap (fun i => l.get? i)
  if l2.isPerm l then l2 else l

/-- Model of `random.sample(pop, k)`: raises `ValueError` when
`k > len(pop)` (line 121 / 125 callers); otherwise returns `k` distinct
elements selected by the oracle indices (falling back to the first `k`
elements when the oracle data is invalid). -/
def pySample (sel : List Nat) (pop : List String) (k : Nat) :
    Except OrgaError (List String) :=
  if pop.length < k then .error (.pythonException "ValueError")
  else .ok (if sel.length = k ∧ sel.Nodup ∧ sel.all (· < pop.length)
    then sel.map (fun i => pop.getD i "") else pop.take k)

/-- Model of `random.choices(pop, k=k)` (sampling with replacement):
raises `IndexError` when the population is empty and `k > 0`; otherwise
returns the `k` elements selected by the oracle indices (falling back to
`k` copies of the first element when the oracle data is invalid). -/
def pyChoices (sel : List Nat) (pop : List String) (k : Nat) :
    Except OrgaError (List String) :=
  if pop.isEmpty ∧ k ≠ 0 then .error (.pythonException "IndexError")
  else .ok (if sel.length = k ∧ sel.all (· < pop.length)
    then sel.map (fun i => pop.getD i "") else List.replicate k (pop.getD 0 ""))

/-- The `field_data` mapping (lines 79-87): field name to its stripped,
non-blank source lines.  The embedding takes the loaded data as input, so
the dict is an association list keyed by the paired field.  (A Python dict
keeps the last of duplicate keys while `find?` keeps the first; the two
only differ on duplicate field names, which error out before any lookup.) -/
def fieldLookup (fd : List (DataField × List String)) (nm : String) :
    List String :=
  match fd.find? (fun p => p.1.name = nm) with
  | some p => p.2
  | none => []

/-- Message of the duplicate-field-name error (lines 64-72).  The real
message joins a Python set, whose iteration order is unspecified; the
model joins the duplicated names in first-occurrence order. -/
def dupNamesMsg (fields : List DataField) : String :=
  "duplicate field names: " ++ String.intercalate ", "
    ((fields.map (·.name)).dedup.filter
      (fun nm => 1 < (fields.filter (·.name = nm)).length))

/-- Message of the misconfigured-player-field error (line 95). -/
def playerMarkedMsg : String :=
  "name field must not be marked \"can_repeat\" or \"can_skip\""

/-- Message of the too-many-entries error (lines 97-99). -/
def tooManyMsg (nm : String) (count need : Nat) : String :=
  s!"field {nm} has too many entries, and is not marked \"can_skip\". Got {count}, need {need}"

/-- Message of the too-little-entries error (lines 101-103). -/
def tooLittleMsg (nm : String) (count need : Nat) : String :=
  s!"field {nm} has too little entries, and is not marked \"can_repeat\". Got {count}, need {need}"

/-- Duplicate-name check (lines 64-72): the set of names must be as large
as the list of fields. -/
def checkNames (fields : List DataField) : Except OrgaError Unit :=
  if (fields.map (·.name)).dedup.length ≠ fields.length
  then .error (.validationError (dupNamesMsg fields)) else .ok ()

/-- Exactly-one-player check and selection of the player field
(lines 74-77). -/
def getPlayerField (fields : List DataField) : Except OrgaError DataField :=
  match fields.filter (·.is_player) with
  | [pf] => .ok pf
  | _ => .error (.validationError "exactly one field must have is_player set")

/-- Per-field count validation loop (lines 91-103), reporting the first
violated rule. -/
def checkCounts (fd : List (DataField × List String)) (n : Nat) :
    List DataField → Except OrgaError Unit
  | [] => .ok ()
  | f :: rest =>
    let count := (fieldLookup fd f.name).length
    if f.is_player ∧ (f.can_repeat ∨ f.can_skip) then
      .error (.validationError playerMarkedMsg)
    else if ¬f.can_skip ∧ n < count then
      .error (.validationError (tooManyMsg f.name count n))
    else if ¬f.can_repeat ∧ count < n then
      .error (.validationError (tooLittleMsg f.name count n))
    else checkCounts fd n rest

/-- The target list (line 112): `[*player_list[1:], player_list[0]]`, the
player list rotated left by one position.  (The caller guards the empty
case, where line 112 raises `IndexError`.) -/
def targetList (pl : List String) : List String := pl.drop 1 ++ pl.take 1

/-- The sizing step of the distribution loop (lines 119-125) for the
non-player field `f` at position `i` (its `data` is
`fieldLookup fd f.name`): free resampling when both `can_repeat` and
`can_skip` are set, extension by `random.choices` on a deficit, reduction
by `random.sample` on a surplus, identity otherwise. -/
def distributeField (fd : List (DataField × List String)) (r : Rand) (n : Nat)
    (i : Nat) (f : DataField) : Except OrgaError (List String) :=
  if f.can_repeat ∧ f.can_skip then
    pySample (r.fieldSel i) (fieldLookup fd f.name) n
  else if (fieldLookup fd f.name).length < n then
    match pyChoices (r.fieldSel i) (fieldLookup fd f.name)
        (n - (fieldLookup fd f.name).length) with
    | .error e => .error e
    | .ok ext => .ok (fieldLookup fd f.name ++ ext)
  else if n < (fieldLookup fd f.name).length then
    pySample (r.fieldSel i) (fieldLookup fd f.name) n
  else .ok (fieldLookup fd f.name)

/-- The per-field distribution loop (lines 114-127), producing one output
list per non-player field (sized by `distributeField`, then shuffled).
Fields are paired with their position, which indexes the oracle draws. -/
def makeOtherLists (fd : List (DataField × List String)) (r : Rand) (n : Nat) :
    List (Nat × DataField) → Except OrgaError (List (List String))
  | [] => .ok []
  | (i, f) :: rest =>
    if f.is_player then makeOtherLists fd r n rest
    else
      match distributeField fd r n i f with
      | .error e => .error e
      | .ok data2 =>
        match makeOtherLists fd r n rest with
        | .error e => .error e
        | .ok others => .ok (applyPerm (r.fieldPerm i) data2 :: others)

/-- Comparison of two cells, as Python compares the homogeneous column
values (`int` by value, `str` lexicographically by code point); comparing
an `int` with a `str` raises `TypeError` in Python, modelled as `none`
(never reached on generated tables, whose columns are homogeneous). -/
def cellCmp : Cell → Cell → Option Ordering
  | .int m, .int n => some (compare m n)
  | .str a, .str b => some (if a = b then .eq else if a < b then .lt else .gt)
  | _, _ => none

/-- Lexicographic comparison of two rows, as Python compares lists. -/
def rowCmp : List Cell → List Cell → Option Ordering
  | [], [] => some .eq
  | [], _ :: _ => some .lt
  | _ :: _, [] => some .gt
  | a :: as_, b :: bs => match cellCmp a b with
    | some .eq => rowCmp as_ bs
    | o => o

/-- The whole-row order used by `orga_table.sort()` (line 134). -/
def pyRowLe (a b : List Cell) : Bool := rowCmp a b ≠ some .gt

/-- Ordered insertion, the building block of the modelled sort. -/
def pyInsert (le : α → α → Bool) (a : α) : List α → List α
  | [] => [a]
  | b :: t => if le a b then a :: b :: t else b :: pyInsert le a t

/-- Model of `list.sort()` with comparison `le`: produces a sorted
permutation of the input (the generated tables have pairwise distinct
sort keys, so every correct sort produces this same list). -/
def pySort (le : α → α → Bool) : List α → List α
  | [] => []
  | a :: t => pyInsert le a (pySort le t)

/-- The head id of a row (the sole sort key of a well-formed table). -/
def rowId (row : List Cell) : Int :=
  match row.head? with
  | some (.int n) => n
  | _ => 0

/-- Modelled from the spec: the re-engineered row comparator "keyed solely
on the numeric id" (design note in section 9 of the spec), to be compared
with the whole-row order `pyRowLe` of the code. -/
def rowIdLe (a b : List Cell) : Bool := rowId a ≤ rowId b

/-- The transpose step (line 132): `[[col[i] for col in cols] for i in
range(n)]`; accessing `col[i]` with `i ≥ len(col)` raises `IndexError`. -/
def transposeCols (cols : List (List Cell)) (n : Nat) :
    Except OrgaError PyTable :=
  if cols.all (fun c => n ≤ c.length) then
    .ok ((List.range n).map (fun i => cols.map (fun c => c.getD i (.int 0))))
  else .error (.pythonException "IndexError")

/-- The columns assembled at line 129: shuffled ids, shuffled players,
the targets (players rotated left by one), and the distributed non-player
lists. -/
def orgaCols (r : Rand) (players : List String)
    (others : List (List String)) : List (List Cell) :=
  (applyPerm r.idPerm (List.range players.length)).map
      (fun i => Cell.int (Int.ofNat i)) ::
    (applyPerm r.playerPerm players).map Cell.str ::
      (targetList (applyPerm r.playerPerm players)).map Cell.str ::
        others.map (fun o => o.map Cell.str)

/-- The generation/assembly phase of `_create_orga` (lines 106-139), run
after validation has passed: shuffle of ids and players, rotation into
targets (line 112 raises `IndexError` on an empty player list), per-field
distribution, transpose, whole-row sort, and the two final `assert`
statements (an `assert` failure is the uncaught `AssertionError`). -/
def generatePhase (fd : List (DataField × List String)) (r : Rand)
    (players : List String) : Except OrgaError PyTable :=
  let fields := fd.map (·.1)
  let n := players.length
  if (applyPerm r.playerPerm players).isEmpty then
    .error (.pythonException "IndexError")
  else do
    let others ← makeOtherLists fd r n fields.enum
    let t ← transposeCols (orgaCols r players others) n
    let sorted := pySort pyRowLe t
    if sorted.length = n ∧ sorted.all (fun row => row.length = 2 + fields.length)
    then .ok sorted
    else .error (.pythonException "AssertionError")

/-- The core of `_create_orga` (lines 60-139): validation followed by the
generation phase. -/
def createOrga (fd : List (DataField × List String)) (r : Rand) :
    Except OrgaError PyTable := do
  let fields := fd.map (·.1)
  checkNames fields
  let pf ← getPlayerField fields
  checkCounts fd (fieldLookup fd pf.name).length fields
  generatePhase fd r (fieldLookup fd pf.name)

/-- The player entries of an input configuration (the data of its unique
player field). -/
def playersOf (fd : List (DataField × List String)) : List String :=
  match getPlayerField (fd.map (·.1)) with
  | .ok pf => fieldLookup fd pf.name
  | .error _ => []

/-- The `playerName` of a row of the assembled table (column 1). -/
def rowPlayerName (row : List Cell) : Option String :=
  match row.get? 1 with
  | some (.str s) => some s
  | _ => none

/-- The `targetName` of a row of the assembled table (column 2). -/
def rowTargetName (row : List Cell) : Option String :=
  match row.get? 2 with
  | some (.str s) => some s
  | _ => none

/-- A field passing the three per-field validation checks of the loop at
lines 91-103 (player field unmarked, count not too high unless
skippable, count not too low unless repeatable). -/
def fieldPasses (fd : List (DataField × List String)) (n : Nat)
    (f : DataField) : Prop :=
  ¬(f.is_player ∧ (f.can_repeat ∨ f.can_skip)) ∧
  (¬f.can_skip → (fieldLookup fd f.name).length ≤ n) ∧
  (¬f.can_repeat → n ≤ (fieldLookup fd f.name).length)

instance (fd : List (DataField × List String)) (n : Nat) (f : DataField) :
    Decidable (fieldPasses fd n f) := by
  unfold fieldPasses
  infer_instance

/-- A player field named "name", as in the sample configuration. -/
def playerField : DataField := ⟨"name", true, false, false⟩

/-- A plain non-player field (no `can_repeat`, no `can_skip`). -/
def missionField : DataField := ⟨"mission", false, false, false⟩

/-- A non-player field marked both `can_repeat` and `can_skip`. -/
def repSkipField : DataField := ⟨"mission", false, true, true⟩

/-- A non-player field marked `can_repeat` only. -/
def repField : DataField := ⟨"mission", false, true, false⟩

/-- Following the target relation once: look up the row whose `playerName`
is `s` and return its `targetName`. -/
def tableStep (t : PyTable) (s : String) : Option String :=
  (t.find? (fun row => rowPlayerName row == some s)).bind rowTargetName

/-- Iterated target-following. -/
def stepIter (t : PyTable) : Nat → String → Option String
  | 0, s => some s
  | k + 1, s => (tableStep t s).bind (stepIter t k)

/-! ### Persistence codec

`_do_organize` writes `b64encode(json.dumps(orga_table).encode()).decode()`
(lines 172-175); the `print` command reads it back with
`json.loads(b64decode(orga_file.read().encode()).decode())` (lines
351-352).  The embedding models `json.dumps` with its default options
(`ensure_ascii=True`, separator `", "`), UTF-8 encoding, the standard
base64 alphabet with padding (non-alphabet characters are silently
discarded by `b64decode`, its default `validate=False`), and the fragment
of `json.loads` reachable from these artifacts: arrays of arrays of
integers and strings, with whitespace skipping, all string escapes
(including `\uXXXX` with surrogate pairs) and integer literals.  A lone
surrogate escape, representable in a Python `str` but not as a Lean
`Char`, makes the modelled parser fail instead. -/

/-- Decimal digits of a natural number, most significant first, as
produced by `str`/`json.dumps`. -/
def natToDigits (n : Nat) : List Char :=
  if n < 10 then [Char.ofNat (48 + n)]
  else natToDigits (n / 10) ++ [Char.ofNat (48 + n % 10)]
termination_by n
decreasing_by exact Nat.div_lt_self (by omega) (by omega)

/-- Rendering of a Python `int` (ids are nonnegative, but the model keeps
the sign for faithfulness). -/
def intDigits (n : Int) : List Char :=
  if n < 0 then '-' :: natToDigits n.natAbs else natToDigits n.toNat

/-- Lowercase hexadecimal digit, as in the `\uXXXX` escapes of
`json.dumps`. -/
def hexDigit (d : Nat) : Char :=
  if d < 10 then Char.ofNat (48 + d) else Char.ofNat (87 + d)

/-- Four lowercase hexadecimal digits. -/
def hex4 (n : Nat) : List Char :=
  [hexDigit (n / 4096 % 16), hexDigit (n / 256 % 16),
    hexDigit (n / 16 % 16), hexDigit (n % 16)]

/-- Escaping of one character by `json.dumps` with `ensure_ascii=True`:
short escapes for the two specials and the five named control characters,
`\u00xx` for other control characters, identity for printable ASCII,
`\uxxxx` for other BMP characters, and a surrogate pair for astral
characters. -/
def escapeChar (c : Char) : List Char :=
  if c = '"' then ['\\', '"']
  else if c = '\\' then ['\\', '\\']
  else if c.toNat = 8 then ['\\', 'b']
  else if c.toNat = 12 then ['\\', 'f']
  else if c = '\n' then ['\\', 'n']
  else if c = '\r' then ['\\', 'r']
  else if c = '\t' then ['\\', 't']
  else if c.toNat < 0x20 then '\\' :: 'u' :: hex4 c.toNat
  else if c.toNat < 0x7f then [c]
  else if c.toNat < 0x10000 then '\\' :: 'u' :: hex4 c.toNat
  else '\\' :: 'u' :: hex4 (0xd800 + (c.toNat - 0x10000) / 1024) ++
    '\\' :: 'u' :: hex4 (0xdc00 + (c.toNat - 0x10000) % 1024)

/-- `", ".join`, the default item separator of `json.dumps`. -/
def joinComma : List (List Char) → List Char
  | [] => []
  | [x] => x
  | x :: xs => x ++ ',' :: ' ' :: joinComma xs

/-- `json.dumps` of one cell. -/
def dumpsCell : Cell → List Char
  | .int n => intDigits n
  | .str s => '"' :: (s.data.map escapeChar).flatten ++ ['"']

/-- `json.dumps` of one row. -/
def dumpsRow (row : List Cell) : List Char :=
  '[' :: joinComma (row.map dumpsCell) ++ [']']

/-- `json.dumps` of the whole table. -/
def dumpsTable (t : PyTable) : List Char :=
  '[' :: joinComma (t.map dumpsRow) ++ [']']

/-- UTF-8 encoding of one scalar value (`str.encode`). -/
def utf8EncodeChar (c : Char) : List Nat :=
  if c.toNat < 0x80 then [c.toNat]
  else if c.toNat < 0x800 then [0xc0 + c.toNat / 64, 0x80 + c.toNat % 64]
  else if c.toNat < 0x10000 then
    [0xe0 + c.toNat / 4096, 0x80 + c.toNat / 64 % 64, 0x80 + c.toNat % 64]
  else
    [0xf0 + c.toNat / 262144, 0x80 + c.toNat / 4096 % 64,
      0x80 + c.toNat / 64 % 64, 0x80 + c.toNat % 64]

/-- UTF-8 encoding of a string as a byte list (each element < 256). -/
def utf8Encode (s : String) : List Nat :=
  (s.data.map utf8EncodeChar).flatten

/-- A UTF-8 continuation byte. -/
def isCont (b : Nat) : Bool := 0x80 ≤ b ∧ b < 0xc0

/-- One step of UTF-8 decoding: the scalar encoded at the head of the
byte list and the remaining bytes, rejecting truncated sequences, stray
continuation bytes, overlong forms, surrogates and values beyond
`0x10FFFF`, as CPython does. -/
def utf8DecodeOne : List Nat → Option (Char × List Nat)
  | [] => none
  | b :: rest =>
    if b < 0x80 then some (Char.ofNat b, rest)
    else if b < 0xc2 then none
    else if b < 0xe0 then
      match rest with
      | b2 :: rest2 =>
        if isCont b2 then
          some (Char.ofNat ((b - 0xc0) * 64 + (b2 - 0x80)), rest2)
        else none
      | [] => none
    else if b < 0xf0 then
      match rest with
      | b2 :: b3 :: rest2 =>
        if isCont b2 ∧ isCont b3 ∧ (0xe0 < b ∨ 0xa0 ≤ b2) ∧
            (b ≠ 0xed ∨ b2 < 0xa0) then
          some (Char.ofNat ((b - 0xe0) * 4096 + (b2 - 0x80) * 64 +
            (b3 - 0x80)), rest2)
        else none
      | _ => none
    else if b < 0xf5 then
      match rest with
      | b2 :: b3 :: b4 :: rest2 =>
        if isCont b2 ∧ isCont b3 ∧ isCont b4 ∧ (0xf0 < b ∨ 0x90 ≤ b2) ∧
            (b ≠ 0xf4 ∨ b2 < 0x90) then
          some (Char.ofNat ((b - 0xf0) * 262144 + (b2 - 0x80) * 4096 +
            (b3 - 0x80) * 64 + (b4 - 0x80)), rest2)
        else none
      | _ => none
    else none

/-- Fueled UTF-8 decoding loop; each step consumes at least one byte, so
fuel equal to the byte count always suffices. -/
def utf8DecodeLoop : Nat → List Nat → Option (List Char)
  | _, [] => some []
  | 0, _ :: _ => none
  | fuel + 1, b :: rest =>
    match utf8DecodeOne (b :: rest) with
    | some p => (utf8DecodeLoop fuel p.2).map (fun cs => p.1 :: cs)
    | none => none

/-- UTF-8 decoding of a byte list (`bytes.decode`). -/
def utf8Decode (bs : List Nat) : Option (List Char) :=
  utf8DecodeLoop bs.length bs

/-- The standard base64 alphabet. -/
def b64Char (n : Nat) : Char :=
  if n < 26 then Char.ofNat (65 + n)
  else if n < 52 then Char.ofNat (97 + (n - 26))
  else if n < 62 then Char.ofNat (48 + (n - 52))
  else if n = 62 then '+'
  else '/'

/-- `base64.b64encode` of a byte list, with `=` padding. -/
def b64encodeBytes : List Nat → List Char
  | b1 :: b2 :: b3 :: rest =>
    b64Char (b1 / 4) :: b64Char (b1 % 4 * 16 + b2 / 16) ::
      b64Char (b2 % 16 * 4 + b3 / 64) :: b64Char (b3 % 64) ::
        b64encodeBytes rest
  | [b1, b2] =>
    [b64Char (b1 / 4), b64Char (b1 % 4 * 16 + b2 / 16),
      b64Char (b2 % 16 * 4), '=']
  | [b1] => [b64Char (b1 / 4), b64Char (b1 % 4 * 16), '=', '=']
  | [] => []

/-- Value of one base64 alphabet character. -/
def b64Val (c : Char) : Option Nat :=
  if 65 ≤ c.toNat ∧ c.toNat ≤ 90 then some (c.toNat - 65)
  else if 97 ≤ c.toNat ∧ c.toNat ≤ 122 then some (c.toNat - 97 + 26)
  else if 48 ≤ c.toNat ∧ c.toNat ≤ 57 then some (c.toNat - 48 + 52)
  else if c = '+' then some 62
  else if c = '/' then some 63
  else none

/-- Characters `binascii.a2b_base64` does not discard. -/
def isB64OrPad (c : Char) : Bool := (b64Val c).isSome ∨ c = '='

/-- Decoding of a filtered base64 character stream in quads, with the
final quad optionally padded; any other shape (in particular a length not
divisible by four) is the `binascii.Error` raised by `b64decode`,
modelled as `none`. -/
def b64decodeChars : List Char → Option (List Nat)
  | [] => some []
  | c1 :: c2 :: c3 :: c4 :: rest =>
    match b64Val c1, b64Val c2 with
    | some v1, some v2 =>
      if c3 = '=' then
        if c4 = '=' ∧ rest = [] then some [v1 * 4 + v2 / 16] else none
      else
        match b64Val c3 with
        | some v3 =>
          if c4 = '=' then
            if rest = [] then some [v1 * 4 + v2 / 16, v2 % 16 * 16 + v3 / 4]
            else none
          else
            match b64Val c4 with
            | some v4 =>
              (b64decodeChars rest).map (fun bs =>
                (v1 * 4 + v2 / 16) :: (v2 % 16 * 16 + v3 / 4) ::
                  (v3 % 4 * 64 + v4) :: bs)
            | none => none
        | none => none
    | _, _ => none
  | _ => none

/-- `base64.b64decode` with its default `validate=False`: characters
outside the alphabet (and outside `=`) are silently discarded before
decoding. -/
def pyB64Decode (s : String) : Option (List Nat) :=
  b64decodeChars (s.data.filter isB64OrPad)

/-- JSON whitespace. -/
def isJsonWs (c : Char) : Bool := c = ' ' ∨ c = '\t' ∨ c = '\n' ∨ c = '\r'

/-- Skip JSON whitespace. -/
def skipWs (cs : List Char) : List Char := cs.dropWhile isJsonWs

/-- Value of one hexadecimal digit, either case (`int(s, 16)`). -/
def hexVal (c : Char) : Option Nat :=
  if 48 ≤ c.toNat ∧ c.toNat ≤ 57 then some (c.toNat - 48)
  else if 97 ≤ c.toNat ∧ c.toNat ≤ 102 then some (c.toNat - 97 + 10)
  else if 65 ≤ c.toNat ∧ c.toNat ≤ 70 then some (c.toNat - 65 + 10)
  else none

/-- The single-character string escapes accepted by `json.loads`. -/
def escCharVal : Char → Option Char
  | '"' => some '"'
  | '\\' => some '\\'
  | '/' => some '/'
  | 'b' => some (Char.ofNat 8)
  | 'f' => some (Char.ofNat 12)
  | 'n' => some '\n'
  | 'r' => some '\r'
  | 't' => some '\t'
  | _ => none

/-- Four hexadecimal digits and their value, as read by `_decode_uXXXX`
inside `py_scanstring` (`int(s[pos:pos + 4], 16)`). -/
def hex4Val : List Char → Option (Nat × List Char)
  | h1 :: h2 :: h3 :: h4 :: rest =>
    match hexVal h1, hexVal h2, hexVal h3, hexVal h4 with
    | some a, some b, some c, some d =>
      some (a * 4096 + b * 256 + c * 16 + d, rest)
    | _, _, _, _ => none
  | _ => none

/-- The low-surrogate continuation of `py_scanstring`: after a high
surrogate of value `v`, a following `\uXXXX` low surrogate combines into
one astral character. -/
def parseUEscapeLow (v : Nat) : List Char → Option (Option Char × List Char)
  | '\\' :: 'u' :: rest2 =>
    match hex4Val rest2 with
    | none => none
    | some (w, rest3) =>
      if 0xdc00 ≤ w ∧ w ≤ 0xdfff then
        some (some (Char.ofNat
          (0x10000 + (v - 0xd800) * 1024 + (w - 0xdc00))), rest3)
      else none
  | _ => none

/-- Interpretation of one `\uXXXX` value in `py_scanstring`: a BMP value
stands alone, a high surrogate looks for a following low surrogate. -/
def parseUEscapeVal (v : Nat) (rest : List Char) :
    Option (Option Char × List Char) :=
  if v < 0xd800 ∨ 0xdfff < v then some (some (Char.ofNat v), rest)
  else if v < 0xdc00 then parseUEscapeLow v rest
  else none

/-- Decoding of one `\uXXXX` escape (the characters after the `\u`),
combining a high/low surrogate pair into one astral character as
`py_scanstring` does. -/
def parseUEscape (cs : List Char) : Option (Option Char × List Char) :=
  match hex4Val cs with
  | none => none
  | some (v, rest) => parseUEscapeVal v rest

/-- One scan step of `py_scanstring`: from the current position inside a
JSON string, either the closing quote (`some (none, rest)`), one decoded
character (`some (some c, rest)`), or a scan error (`none`).  Raw control
characters below `0x20` are rejected (`strict=True`), as are unknown or
truncated escapes. -/
def parseStringChunk : List Char → Option (Option Char × List Char)
  | [] => none
  | '"' :: rest => some (none, rest)
  | '\\' :: 'u' :: rest => parseUEscape rest
  | '\\' :: e :: rest =>
    match escCharVal e with
    | some c => some (some c, rest)
    | none => none
  | c :: rest =>
    if 0x20 ≤ c.toNat then some (some c, rest) else none

/-- Fueled scan loop over a JSON string body; every chunk consumes at
least one character, so fuel beyond the input length always suffices. -/
def parseStringLoop : Nat → List Char → Option (List Char × List Char)
  | 0, _ => none
  | fuel + 1, cs =>
    match parseStringChunk cs with
    | some (none, rest) => some ([], rest)
    | some (some c, rest) =>
      (parseStringLoop fuel rest).map (fun p => (c :: p.1, p.2))
    | none => none

/-- The body of a JSON string after the opening quote: the characters
and the rest of the input past the closing quote. -/
def parseStringBody (cs : List Char) : Option (List Char × List Char) :=
  parseStringLoop (cs.length + 1) cs

/-- Digit-run accumulator of the JSON number scanner. -/
def parseDigitsAux (acc : Nat) : List Char → Nat × List Char
  | [] => (acc, [])
  | c :: rest =>
    if c.isDigit then parseDigitsAux (acc * 10 + (c.toNat - 48)) rest
    else (acc, c :: rest)

/-- A JSON integer literal without sign: one `0`, or a nonzero leading
digit followed by a digit run. -/
def parseNat : List Char → Option (Nat × List Char)
  | [] => none
  | c :: rest =>
    if c = '0' then
      match rest with
      | d :: _ => if d.isDigit then none else some (0, rest)
      | [] => some (0, [])
    else if c.isDigit then some (parseDigitsAux (c.toNat - 48) rest)
    else none

/-- Whether a number literal continues as a float (`.`, `e`, `E`); the
tables under study hold only integers, so the model stops there. -/
def isNumCont : List Char → Bool
  | c :: _ => c = '.' ∨ c = 'e' ∨ c = 'E'
  | [] => false

/-- One scalar cell: a string or a (possibly negative) integer. -/
def parseCell : List Char → Option (Cell × List Char)
  | '"' :: rest =>
    (parseStringBody rest).map (fun p => (Cell.str (String.mk p.1), p.2))
  | '-' :: rest =>
    match parseNat rest with
    | some (n, rest2) =>
      if isNumCont rest2 then none
      else some (Cell.int (-(Int.ofNat n)), rest2)
    | none => none
  | cs =>
    match parseNat cs with
    | some (n, rest2) =>
      if isNumCont rest2 then none else some (Cell.int (Int.ofNat n), rest2)
    | none => none

/-- After the first element of a JSON array: `(ws ',' ws elem)* ws ']'`.
The fuel bounds the number of remaining elements; callers pass the input
length, which always suffices since every element is at least one
character. -/
def parseSeqRest (pe : List Char → Option (α × List Char)) :
    Nat → List Char → Option (List α × List Char)
  | 0, _ => none
  | fuel + 1, cs =>
    match skipWs cs with
    | ']' :: rest => some ([], rest)
    | ',' :: rest =>
      match pe (skipWs rest) with
      | some p =>
        match parseSeqRest pe fuel p.2 with
        | some q => some (p.1 :: q.1, q.2)
        | none => none
      | none => none
    | _ => none

/-- A JSON array body after the opening bracket. -/
def parseSeq (pe : List Char → Option (α × List Char)) (fuel : Nat)
    (cs : List Char) : Option (List α × List Char) :=
  match skipWs cs with
  | ']' :: rest => some ([], rest)
  | cs2 =>
    match pe cs2 with
    | some p =>
      match parseSeqRest pe fuel p.2 with
      | some q => some (p.1 :: q.1, q.2)
      | none => none
    | none => none

/-- One row: a JSON array of cells. -/
def parseRow (cs : List Char) : Option (List Cell × List Char) :=
  match cs with
  | '[' :: rest => parseSeq parseCell (rest.length + 1) rest
  | _ => none

/-- `json.loads` on the artifact grammar: one array of rows, with
nothing but whitespace after it. -/
def pyLoads (s : String) : Option PyTable :=
  match skipWs s.data with
  | '[' :: rest =>
    match parseSeq parseRow (rest.length + 1) rest with
    | some (t, rest2) => if skipWs rest2 = [] then some t else none
    | none => none
  | _ => none

/-- The encode side of the persistence codec (lines 172-175):
`b64encode(json.dumps(table).encode()).decode()`. -/
def pyEncode (t : PyTable) : String :=
  String.mk (b64encodeBytes (utf8Encode (String.mk (dumpsTable t))))

/-- The decode side (lines 351-352):
`json.loads(b64decode(artifact.encode()).decode())`. -/
def pyDecode (s : String) : Option PyTable :=
  (pyB64Decode s).bind (fun bytes =>
    (utf8Decode bytes).bind (fun cs => pyLoads (String.mk cs)))

/-! ### Helper lemmas about the random primitives -/

theorem applyPerm_perm [DecidableEq α] (pi : List Nat) (l : List α) :
    List.Perm (applyPerm pi l) l := by
  unfold applyPerm
  by_cases h : (pi.filterMap (fun i => l.get? i)).isPerm l
  · simp only [h, if_true]
    exact List.isPerm_iff.mp h
  · simp only [h, if_false]
    exact List.Perm.refl l

theorem applyPerm_length [DecidableEq α] (pi : List Nat) (l : List α) :
    (applyPerm pi l).length = l.length :=
  (applyPerm_perm pi l).length_eq

theorem applyPerm_nil [DecidableEq α] (pi : List Nat) :
    applyPerm pi ([] : List α) = [] := by
  have := applyPerm_perm pi ([] : List α)
  exact List.Perm.eq_nil this

theorem applyPerm_singleton [DecidableEq α] (pi : List Nat) (a : α) :
    applyPerm pi [a] = [a] :=
  List.perm_singleton.mp (applyPerm_perm pi [a])

theorem targetList_length (pl : List String) :
    (targetList pl).length = pl.length := by
  unfold targetList
  simp
  omega

theorem targetList_eq_rotate (pl : List String) :
    targetList pl = pl.rotate 1 := by
  cases pl with
  | nil => rfl
  | cons a t =>
    rw [List.rotate_eq_drop_append_take (by simp)]
    rfl

theorem exbind_ok (a : α) (f : α → Except ε β) :
    (Except.ok a >>= f : Except ε β) = f a := rfl

theorem exbind_err (e : ε) (f : α → Except ε β) :
    ((Except.error e : Except ε α) >>= f) = .error e := rfl

/-- Once the three validation stages pass, `createOrga` is the generation
phase on the player data. -/
theorem createOrga_run (fd : List (DataField × List String)) (r : Rand)
    (pf : DataField)
    (hnames : checkNames (fd.map (·.1)) = .ok ())
    (hpf : getPlayerField (fd.map (·.1)) = .ok pf)
    (hcounts : checkCounts fd (fieldLookup fd pf.name).length (fd.map (·.1)) =
      .ok ()) :
    createOrga fd r = generatePhase fd r (fieldLookup fd pf.name) := by
  simp only [createOrga, hnames, exbind_ok, hpf, hcounts]

theorem getPlayerField_ok_filter (fields : List DataField) (pf : DataField)
    (h : getPlayerField fields = .ok pf) :
    fields.filter (·.is_player) = [pf] := by
  unfold getPlayerField at h
  rcases hfil : fields.filter (·.is_player) with _ | ⟨x, _ | ⟨y, l⟩⟩ <;>
    rw [hfil] at h
  · cases h
  · injection h with h
    exact h ▸ hfil
  · cases h

theorem transposeCols_ok (cols : List (List Cell)) (n : Nat) (t0 : PyTable)
    (h : transposeCols cols n = .ok t0) :
    (∀ c ∈ cols, n ≤ c.length) ∧
    t0 = (List.range n).map (fun i => cols.map (fun c => c.getD i (.int 0))) := by
  unfold transposeCols at h
  split at h
  · injection h with h
    refine ⟨?_, h.symm⟩
    intro c hc
    have hall := List.all_eq_true.mp (by assumption) c hc
    exact of_decide_eq_true hall
  · cases h

theorem pySample_ok_length (sel : List Nat) (pop : List String) (k : Nat)
    (out : List String) (h : pySample sel pop k = .ok out) :
    out.length = k := by
  unfold pySample at h
  split at h
  · cases h
  · injection h with h
    subst h
    split
    · rename_i hvalid
      rw [List.length_map]
      exact hvalid.1
    · rename_i hk _
      rw [List.length_take]
      exact Nat.min_eq_left (Nat.not_lt.mp hk)

theorem pyChoices_ok_length (sel : List Nat) (pop : List String) (k : Nat)
    (out : List String) (h : pyChoices sel pop k = .ok out) :
    out.length = k := by
  unfold pyChoices at h
  split at h
  · cases h
  · injection h with h
    subst h
    split
    · rename_i hvalid
      rw [List.length_map]
      exact hvalid.1
    · exact List.length_replicate k _

theorem exbind_ok_elim {ε α β : Type} {x : Except ε α} {f : α → Except ε β}
    {b : β} (h : (x >>= f) = .ok b) : ∃ a, x = .ok a ∧ f a = .ok b := by
  cases x with
  | error e =>
    rw [exbind_err] at h
    cases h
  | ok a => exact ⟨a, rfl, h⟩

theorem distributeField_ok_length (fd : List (DataField × List String))
    (r : Rand) (n : Nat) (i : Nat) (f : DataField) (out : List String)
    (h : distributeField fd r n i f = .ok out) : out.length = n := by
  unfold distributeField at h
  split at h
  · exact pySample_ok_length _ _ _ _ h
  · split at h
    · split at h
      · cases h
      · rename_i ext hext
        injection h with h
        rw [← h, List.length_append, pyChoices_ok_length _ _ _ _ hext]
        omega
    · split at h
      · exact pySample_ok_length _ _ _ _ h
      · injection h with h
        rw [← h]
        omega

theorem makeOtherLists_ok_lengths (fd : List (DataField × List String))
    (r : Rand) (n : Nat) (l : List (Nat × DataField))
    (others : List (List String))
    (h : makeOtherLists fd r n l = .ok others) :
    ∀ o ∈ others, o.length = n := by
  induction l generalizing others with
  | nil =>
    unfold makeOtherLists at h
    injection h with h
    subst h
    intro o ho
    cases ho
  | cons p rest ih =>
    obtain ⟨i, f⟩ := p
    unfold makeOtherLists at h
    split at h
    · exact ih others h
    · rcases hstep : distributeField fd r n i f with e | data2
      · rw [hstep] at h
        cases h
      · rw [hstep] at h
        rcases hrest : makeOtherLists fd r n rest with e2 | others2
        · rw [hrest] at h
          cases h
        · rw [hrest] at h
          injection h with h
          subst h
          intro o ho
          rcases List.mem_cons.mp ho with ho | ho
          · rw [ho, applyPerm_length]
            exact distributeField_ok_length fd r n i f data2 hstep
          · exact ih others2 hrest o ho

/-- Structure of every successful organization run: there is a unique
player field, the distribution loop succeeded, the transpose succeeded on
columns of sufficient length, and the resulting table is the whole-row
sort of the transposed rows, with the asserted row count and width. -/
theorem createOrga_ok_parts (fd : List (DataField × List String)) (r : Rand)
    (t : PyTable) (h : createOrga fd r = .ok t) :
    ∃ pf others,
      getPlayerField (fd.map (·.1)) = .ok pf ∧
      (fd.map (·.1)).filter (·.is_player) = [pf] ∧
      makeOtherLists fd r (fieldLookup fd pf.name).length
        ((fd.map (·.1)).enum) = .ok others ∧
      (∀ o ∈ others, o.length = (fieldLookup fd pf.name).length) ∧
      (applyPerm r.playerPerm (fieldLookup fd pf.name)).isEmpty = false ∧
      (∀ c ∈ orgaCols r (fieldLookup fd pf.name) others,
        (fieldLookup fd pf.name).length ≤ c.length) ∧
      t = pySort pyRowLe ((List.range (fieldLookup fd pf.name).length).map
        (fun i => (orgaCols r (fieldLookup fd pf.name) others).map
          (fun c => c.getD i (.int 0)))) ∧
      t.length = (fieldLookup fd pf.name).length ∧
      (∀ row ∈ t, row.length = 2 + fd.length) := by
  simp only [createOrga] at h
  obtain ⟨u, hnames, h⟩ := exbind_ok_elim h
  obtain ⟨pf, hpf, h⟩ := exbind_ok_elim h
  obtain ⟨v, hcounts, h⟩ := exbind_ok_elim h
  refine ⟨pf, ?_⟩
  simp only [generatePhase] at h
  split at h
  · cases h
  · rename_i hne
    obtain ⟨others, hml, h⟩ := exbind_ok_elim h
    obtain ⟨t0, htr, h⟩ := exbind_ok_elim h
    obtain ⟨hcols, ht0⟩ := transposeCols_ok _ _ _ htr
    split at h
    · rename_i hassert
      injection h with h
      subst h
      obtain ⟨hlen, hwidth⟩ := hassert
      refine ⟨others, hpf, getPlayerField_ok_filter _ _ hpf, hml,
        makeOtherLists_ok_lengths _ _ _ _ _ hml, ?_, hcols, ?_, hlen, ?_⟩
      · exact Bool.of_not_eq_true hne
      · rw [ht0]
      · intro row hrow
        have := List.all_eq_true.mp hwidth row hrow
        have hw := of_decide_eq_true this
        rw [hw, List.length_map]
    · cases h

/-! ### Claim C2 -/

/-- Claim C2: for every valid input, the target sequence built at line 112
equals the (shuffled) player sequence rotated left by one position:
`targets[i] = players[(i+1) mod N]` for every index `i < N`. -/
theorem c2_targets_rotated_left (pl : List String) (i : Nat)
    (h : i < pl.length) :
    targetList pl = pl.rotate 1 ∧
    (targetList pl).getD i "" = pl.getD ((i + 1) % pl.length) "" := by
  refine ⟨targetList_eq_rotate pl, ?_⟩
  rw [targetList_eq_rotate]
  have h2 : i < (pl.rotate 1).length := by rw [List.length_rotate]; exact h
  have h3 : (i + 1) % pl.length < pl.length := Nat.mod_lt _ (by omega)
  rw [List.getD_eq_getElem?_getD, List.getElem?_eq_getElem h2,
    List.getD_eq_getElem?_getD, List.getElem?_eq_getElem h3,
    List.getElem_rotate]

/-- Witness for claim C2 at a concrete input. -/
theorem c2_witness :
    0 < (["Alice", "Bob"] : List String).length ∧
    (targetList ["Alice", "Bob"] = (["Alice", "Bob"] : List String).rotate 1 ∧
      (targetList ["Alice", "Bob"]).getD 0 "" =
        (["Alice", "Bob"] : List String).getD
          ((0 + 1) % (["Alice", "Bob"] : List String).length) "") :=
  ⟨by decide, c2_targets_rotated_left ["Alice", "Bob"] 0 (by decide)⟩

/-! ### Claim C5 -/

/-- Counterexample to claim C5 as stated: with a single participant
(`N = 1 < 2`) the code does not fail with any error — it succeeds and
returns a one-row table whose target is the player itself. -/
theorem c5_counterexample :
    createOrga [(playerField, ["Ann"])] rand0 =
      .ok [[.int 0, .str "Ann", .str "Ann"]] ∧
    (playersOf [(playerField, ["Ann"])]).length < 2 := by
  constructor
  · rfl
  · decide

/-- Claim C5 amended: for zero player entries the run fails — but with an
uncaught `IndexError` from `player_list[0]` at line 112, not a named
`InsufficientParticipants` error; for exactly one player entry the run
does not fail at all: it returns the single self-targeting row. -/
theorem c5_small_player_counts :
    (∀ r : Rand, createOrga [(playerField, [])] r =
      .error (.pythonException "IndexError")) ∧
    (∀ (p : String) (r : Rand), createOrga [(playerField, [p])] r =
      .ok [[.int 0, .str p, .str p]]) := by
  constructor
  · intro r
    rw [createOrga_run [(playerField, [])] r playerField rfl rfl rfl]
    show generatePhase [(playerField, [])] r [] = _
    unfold generatePhase
    rw [applyPerm_nil]
    rfl
  · intro p r
    rw [createOrga_run [(playerField, [p])] r playerField rfl rfl rfl]
    show generatePhase [(playerField, [p])] r [p] = _
    unfold generatePhase
    have h0 : List.range 1 = [0] := rfl
    simp only [orgaCols, List.length_singleton, h0, applyPerm_singleton]
    rfl

/-! ### Claim C10 -/

/-- Claim C10: a non-player field with `can_repeat = true` and an empty
source passes the count validation (a deficit is tolerated when
`can_repeat` is set), but the generation phase then fails with the
uncaught `IndexError` of `random.choices` on an empty population — so the
repeat-to-fill path additionally needs at least one source entry. -/
theorem c10_empty_repeat_field (ps : List String) (r : Rand) (h : ps ≠ []) :
    checkCounts [(playerField, ps), (repField, [])] ps.length
      [playerField, repField] = .ok () ∧
    createOrga [(playerField, ps), (repField, [])] r =
      .error (.pythonException "IndexError") := by
  have hn : 0 < ps.length := List.length_pos.mpr h
  have hcounts : checkCounts [(playerField, ps), (repField, [])] ps.length
      [playerField, repField] = .ok () := by
    simp [checkCounts, fieldLookup, playerField, repField, Nat.lt_irrefl]
  refine ⟨hcounts, ?_⟩
  rw [createOrga_run [(playerField, ps), (repField, [])] r playerField rfl rfl
    (by exact hcounts)]
  show generatePhase [(playerField, ps), (repField, [])] r ps = _
  have hne : (applyPerm r.playerPerm ps).isEmpty = false := by
    rcases heq : applyPerm r.playerPerm ps with _ | ⟨a, t⟩
    · exfalso
      apply h
      have hperm := applyPerm_perm r.playerPerm ps
      rw [heq] at hperm
      exact (hperm.symm).eq_nil
    · rfl
  have hml : makeOtherLists [(playerField, ps), (repField, [])] r ps.length
      ((List.map (fun x => x.1) [(playerField, ps), (repField, [])]).enum) =
      .error (.pythonException "IndexError") := by
    show makeOtherLists _ _ _ [(0, playerField), (1, repField)] = _
    simp [makeOtherLists, distributeField, playerField, repField, fieldLookup,
      pyChoices, hn, Nat.pos_iff_ne_zero, h]
  unfold generatePhase
  simp only [hne, Bool.false_eq_true, if_false, hml, exbind_err]

/-- Witness for claim C10 at a concrete input. -/
theorem c10_witness :
    (["Ann"] : List String) ≠ [] ∧
    (checkCounts [(playerField, ["Ann"]), (repField, [])]
        (["Ann"] : List String).length [playerField, repField] = .ok () ∧
      createOrga [(playerField, ["Ann"]), (repField, [])] rand0 =
        .error (.pythonException "IndexError")) :=
  ⟨by decide, c10_empty_repeat_field ["Ann"] rand0 (by decide)⟩

/-! ### Claim C6 -/

/-- Counterexample to claim C6 as stated: for a `can_repeat = can_skip =
true` field with fewer entries than players, the code does not produce a
named `DistributionUnderflow` (deliberate, `validationError`-class)
failure: `random.sample` at line 121 raises `ValueError`, which escapes
uncaught — the `pythonException` error class, i.e. an uncontrolled crash. -/
theorem c6_counterexample :
    createOrga [(playerField, ["Ann", "Bob"]), (repSkipField, ["x"])] rand0 =
      .error (.pythonException "ValueError") := by
  rfl

/-- Claim C6 amended: such a field passes validation and the run then
fails — it neither pads silently nor returns a table — but the failure is
the uncaught `ValueError` of `random.sample` with `k` larger than the
population, not a named `DistributionUnderflow` error. -/
theorem c6_rep_skip_underflow (ps aux : List String) (r : Rand)
    (h : aux.length < ps.length) :
    checkCounts [(playerField, ps), (repSkipField, aux)] ps.length
      [playerField, repSkipField] = .ok () ∧
    createOrga [(playerField, ps), (repSkipField, aux)] r =
      .error (.pythonException "ValueError") := by
  have hne0 : ps ≠ [] := by
    intro hnil
    rw [hnil] at h
    exact Nat.not_lt_zero _ h
  have hcounts : checkCounts [(playerField, ps), (repSkipField, aux)] ps.length
      [playerField, repSkipField] = .ok () := by
    simp [checkCounts, fieldLookup, playerField, repSkipField, Nat.lt_irrefl]
  refine ⟨hcounts, ?_⟩
  rw [createOrga_run [(playerField, ps), (repSkipField, aux)] r playerField rfl
    rfl (by exact hcounts)]
  show generatePhase [(playerField, ps), (repSkipField, aux)] r ps = _
  have hne : (applyPerm r.playerPerm ps).isEmpty = false := by
    rcases heq : applyPerm r.playerPerm ps with _ | ⟨a, t⟩
    · exfalso
      apply hne0
      have hperm := applyPerm_perm r.playerPerm ps
      rw [heq] at hperm
      exact (hperm.symm).eq_nil
    · rfl
  have hml : makeOtherLists [(playerField, ps), (repSkipField, aux)] r ps.length
      ((List.map (fun x => x.1) [(playerField, ps), (repSkipField, aux)]).enum) =
      .error (.pythonException "ValueError") := by
    show makeOtherLists _ _ _ [(0, playerField), (1, repSkipField)] = _
    simp [makeOtherLists, distributeField, playerField, repSkipField,
      fieldLookup, pySample, h]
  unfold generatePhase
  simp only [hne, Bool.false_eq_true, if_false, hml, exbind_err]

/-- Witness for claim C6 at a concrete input. -/
theorem c6_witness :
    (["x"] : List String).length < (["Ann", "Bob"] : List String).length ∧
    (checkCounts [(playerField, ["Ann", "Bob"]), (repSkipField, ["x"])]
        (["Ann", "Bob"] : List String).length [playerField, repSkipField] =
        .ok () ∧
      createOrga [(playerField, ["Ann", "Bob"]), (repSkipField, ["x"])] rand0 =
        .error (.pythonException "ValueError")) :=
  ⟨by decide, c6_rep_skip_underflow ["Ann", "Bob"] ["x"] rand0 (by decide)⟩

/-! ### Claim C7 -/

theorem checkCounts_cons_of_passes (fd : List (DataField × List String))
    (n : Nat) (g : DataField) (l : List DataField)
    (hg : fieldPasses fd n g) :
    checkCounts fd n (g :: l) = checkCounts fd n l := by
  obtain ⟨h1, h2, h3⟩ := hg
  conv_lhs => unfold checkCounts
  rw [if_neg h1, if_neg, if_neg]
  · rintro ⟨hg1, hg2⟩
    exact Nat.not_lt.mpr (h3 hg1) hg2
  · rintro ⟨hg1, hg2⟩
    exact Nat.not_lt.mpr (h2 hg1) hg2

theorem checkCounts_append (fd : List (DataField × List String)) (n : Nat)
    (pre rest : List DataField)
    (hpre : ∀ g ∈ pre, fieldPasses fd n g) :
    checkCounts fd n (pre ++ rest) = checkCounts fd n rest := by
  induction pre with
  | nil => rfl
  | cons g pre ih =>
    rw [List.cons_append,
      checkCounts_cons_of_passes fd n g (pre ++ rest) (hpre g (by simp))]
    exact ih (fun g hg => hpre g (by simp [hg]))

/-- Claim C7: the validation loop rejects — deliberately, with the exact
message naming the field and the actual/expected counts — the first field
whose entry count is too high while not skippable, or too low while not
repeatable.  The conclusion holds for every random oracle `r` and does not
mention it: no randomization takes place. -/
theorem c7_count_validation (fd : List (DataField × List String)) (r : Rand)
    (pre post : List DataField) (f : DataField) (pf : DataField)
    (hfields : fd.map (·.1) = pre ++ f :: post)
    (hnames : checkNames (fd.map (·.1)) = .ok ())
    (hpf : getPlayerField (fd.map (·.1)) = .ok pf)
    (hpre : ∀ g ∈ pre,
      fieldPasses fd (fieldLookup fd pf.name).length g)
    (hf : ¬(f.is_player ∧ (f.can_repeat ∨ f.can_skip))) :
    ((¬f.can_skip ∧ (fieldLookup fd pf.name).length <
        (fieldLookup fd f.name).length) →
      createOrga fd r = .error (.validationError
        (tooManyMsg f.name (fieldLookup fd f.name).length
          (fieldLookup fd pf.name).length))) ∧
    ((¬(¬f.can_skip ∧ (fieldLookup fd pf.name).length <
          (fieldLookup fd f.name).length) ∧
        ¬f.can_repeat ∧ (fieldLookup fd f.name).length <
          (fieldLookup fd pf.name).length) →
      createOrga fd r = .error (.validationError
        (tooLittleMsg f.name (fieldLookup fd f.name).length
          (fieldLookup fd pf.name).length))) := by
  have hrun : ∀ e : OrgaError,
      checkCounts fd (fieldLookup fd pf.name).length (fd.map (·.1)) =
        .error e →
      createOrga fd r = .error e := by
    intro e he
    simp only [createOrga, hnames, exbind_ok, hpf, he, exbind_err]
  constructor
  · rintro ⟨hs, hc⟩
    apply hrun
    rw [hfields, checkCounts_append fd _ pre (f :: post) hpre]
    unfold checkCounts
    rw [if_neg hf, if_pos ⟨hs, hc⟩]
  · rintro ⟨hm, hr, hc⟩
    apply hrun
    rw [hfields, checkCounts_append fd _ pre (f :: post) hpre]
    unfold checkCounts
    rw [if_neg hf, if_neg hm, if_pos ⟨hr, hc⟩]

/-- Witness for claim C7 at a concrete input: a non-skippable field with 3
entries for 2 players is rejected with the too-many-entries message. -/
theorem c7_witness :
    createOrga [(playerField, ["Ann", "Bob"]), (missionField, ["x", "y", "z"])]
      rand0 = .error (.validationError (tooManyMsg "mission" 3 2)) :=
  (c7_count_validation
    [(playerField, ["Ann", "Bob"]), (missionField, ["x", "y", "z"])] rand0
    [playerField] [] missionField playerField rfl rfl rfl
    (by decide) (by decide)).1 (by decide)

theorem length_eq_filter_add_filter (p : α → Bool) (l : List α) :
    l.length = (l.filter p).length + (l.filter (fun a => !p a)).length := by
  induction l with
  | nil => rfl
  | cons a t ih =>
    cases hpa : p a <;> simp [List.filter_cons, hpa, ih] <;> omega

/-! ### Claim C9 -/

/-- Counterexample to claim C9 as stated: with one player field and one
non-player field, every produced row has width 4 (id, playerName,
targetName, and one value), not `2 + countOfNonPlayerFields = 3`. -/
theorem c9_counterexample :
    createOrga [(playerField, ["Ann", "Bob"]), (missionField, ["x", "y"])]
        rand0 =
      .ok [[.int 0, .str "Ann", .str "Bob", .str "x"],
        [.int 1, .str "Bob", .str "Ann", .str "y"]] ∧
    [Cell.int 0, Cell.str "Ann", Cell.str "Bob", Cell.str "x"].length ≠
      2 + ([playerField, missionField].filter (fun g => !g.is_player)).length := by
  constructor
  · rfl
  · decide

/-- Claim C9 amended: every row of a successful run's table has width
`2 + totalFieldCount` (the asserted invariant at line 137), which equals
`3 + countOfNonPlayerFields` — the id, playerName and targetName cells
plus one value per non-player field; the spec's formula
`2 + countOfNonPlayerFields` is off by one. -/
theorem c9_row_width (fd : List (DataField × List String)) (r : Rand)
    (t : PyTable) (h : createOrga fd r = .ok t) :
    ∀ row ∈ t, row.length = 2 + fd.length ∧
      row.length = 3 +
        ((fd.map (·.1)).filter (fun g => !g.is_player)).length := by
  obtain ⟨pf, others, hpf, hfil, hml, hol, hne, hcols, ht, hlen, hwidth⟩ :=
    createOrga_ok_parts fd r t h
  intro row hrow
  have h2 := hwidth row hrow
  refine ⟨h2, ?_⟩
  have hsum := length_eq_filter_add_filter (·.is_player) (fd.map (·.1))
  rw [hfil] at hsum
  have hmap : (fd.map (·.1)).length = fd.length := List.length_map _ _
  rw [h2]
  simp only [List.length_cons, List.length_nil] at hsum
  omega

/-- Witness for claim C9 at a concrete input. -/
theorem c9_witness :
    createOrga [(playerField, ["Ann", "Bob"])] rand0 =
      .ok [[.int 0, .str "Ann", .str "Bob"], [.int 1, .str "Bob", .str "Ann"]] ∧
    ∀ row ∈ [[Cell.int 0, Cell.str "Ann", Cell.str "Bob"],
        [Cell.int 1, Cell.str "Bob", Cell.str "Ann"]],
      row.length = 2 + [(playerField, ["Ann", "Bob"])].length ∧
      row.length = 3 +
        (([(playerField, ["Ann", "Bob"])].map (fun x => x.1)).filter
          (fun g => !g.is_player)).length :=
  ⟨rfl, c9_row_width [(playerField, ["Ann", "Bob"])] rand0 _ rfl⟩

/-! ### Sorting infrastructure -/

theorem pyInsert_perm (le : α → α → Bool) (a : α) (l : List α) :
    List.Perm (pyInsert le a l) (a :: l) := by
  induction l with
  | nil => exact List.Perm.refl _
  | cons b t ih =>
    unfold pyInsert
    split
    · exact List.Perm.refl _
    · exact List.Perm.trans (List.Perm.cons b ih) (List.Perm.swap a b t)

theorem pySort_perm (le : α → α → Bool) (l : List α) :
    List.Perm (pySort le l) l := by
  induction l with
  | nil => exact List.Perm.refl _
  | cons a t ih =>
    unfold pySort
    exact List.Perm.trans (pyInsert_perm le a (pySort le t)) (List.Perm.cons a ih)

theorem pyInsert_pairwise (le : α → α → Bool)
    (htrans : ∀ a b c, le a b = true → le b c = true → le a c = true)
    (htot : ∀ a b, le a b = true ∨ le b a = true) (a : α) (l : List α)
    (hl : l.Pairwise (fun x y => le x y = true)) :
    (pyInsert le a l).Pairwise (fun x y => le x y = true) := by
  induction l with
  | nil => simp [pyInsert]
  | cons b t ih =>
    rcases List.pairwise_cons.mp hl with ⟨hb, ht⟩
    unfold pyInsert
    split
    · rename_i hab
      refine List.pairwise_cons.mpr ⟨?_, hl⟩
      intro x hx
      rcases List.mem_cons.mp hx with rfl | hx
      · exact hab
      · exact htrans a b x hab (hb x hx)
    · rename_i hab
      have hba : le b a = true := by
        rcases htot a b with h | h
        · exact absurd h hab
        · exact h
      refine List.pairwise_cons.mpr ⟨?_, ih ht⟩
      intro x hx
      have hx2 := (pyInsert_perm le a t).mem_iff.mp hx
      rcases List.mem_cons.mp hx2 with rfl | hx2
      · exact hba
      · exact hb x hx2

theorem pySort_pairwise (le : α → α → Bool)
    (htrans : ∀ a b c, le a b = true → le b c = true → le a c = true)
    (htot : ∀ a b, le a b = true ∨ le b a = true) (l : List α) :
    (pySort le l).Pairwise (fun x y => le x y = true) := by
  induction l with
  | nil => simp [pySort]
  | cons a t ih =>
    unfold pySort
    exact pyInsert_pairwise le htrans htot a (pySort le t) ih

theorem pyInsert_congr (le1 le2 : α → α → Bool) (a : α) (l : List α)
    (h : ∀ b ∈ l, le1 a b = le2 a b) :
    pyInsert le1 a l = pyInsert le2 a l := by
  induction l with
  | nil => rfl
  | cons b t ih =>
    unfold pyInsert
    rw [h b (by simp)]
    split
    · rfl
    · rw [ih (fun x hx => h x (by simp [hx]))]

theorem pySort_congr (le1 le2 : α → α → Bool) (l : List α)
    (h : ∀ a ∈ l, ∀ b ∈ l, le1 a b = le2 a b) :
    pySort le1 l = pySort le2 l := by
  induction l with
  | nil => rfl
  | cons a t ih =>
    unfold pySort
    rw [ih (fun x hx y hy => h x (by simp [hx]) y (by simp [hy]))]
    refine pyInsert_congr le1 le2 a (pySort le2 t) ?_
    intro b hb
    have hbt := (pySort_perm le2 t).mem_iff.mp hb
    exact h a (by simp) b (by simp [hbt])

theorem cellCmp_self (c : Cell) : cellCmp c c = some .eq := by
  cases c with
  | int n => simp [cellCmp, compare_eq_iff_eq]
  | str s => simp [cellCmp]

theorem rowCmp_int_head (ma mb : Int) (ra rb : List Cell) (h : ma ≠ mb) :
    rowCmp (Cell.int ma :: ra) (Cell.int mb :: rb) = some (compare ma mb) := by
  have hc : cellCmp (Cell.int ma) (Cell.int mb) = some (compare ma mb) := rfl
  unfold rowCmp
  rw [hc]
  rcases hcc : compare ma mb with _ | _ | _
  · rfl
  · exact absurd (compare_eq_iff_eq.mp hcc) h
  · rfl

theorem rowCmp_self (row : List Cell) : rowCmp row row = some .eq := by
  induction row with
  | nil => rfl
  | cons c rest ih =>
    unfold rowCmp
    rw [cellCmp_self]
    exact ih

/-- On rows that all start with an integer id cell, and whose ids are
pairwise distinct, the whole-row order of `list.sort()` agrees with the
id-keyed comparator. -/
theorem pyRowLe_eq_rowIdLe (rows : PyTable)
    (hhead : ∀ row ∈ rows, ∃ m rest, row = Cell.int m :: rest)
    (hnodup : (rows.map rowId).Nodup) :
    ∀ a ∈ rows, ∀ b ∈ rows, pyRowLe a b = rowIdLe a b := by
  intro a ha b hb
  by_cases hid : rowId a = rowId b
  · have hab : a = b := List.inj_on_of_nodup_map hnodup ha hb hid
    subst hab
    have h1 : pyRowLe a a = true := by
      simp [pyRowLe, rowCmp_self a]
    have h2 : rowIdLe a a = true := by
      simp [rowIdLe]
    rw [h1, h2]
  · obtain ⟨ma, ra, hae⟩ := hhead a ha
    obtain ⟨mb, rb, hbe⟩ := hhead b hb
    subst hae
    subst hbe
    have hma : rowId (Cell.int ma :: ra) = ma := rfl
    have hmb : rowId (Cell.int mb :: rb) = mb := rfl
    rw [hma, hmb] at hid
    have hcmp := rowCmp_int_head ma mb ra rb hid
    rcases h : compare ma mb with _ | _ | _
    · have hlt := compare_lt_iff_lt.mp h
      rw [h] at hcmp
      have h1 : pyRowLe (Cell.int ma :: ra) (Cell.int mb :: rb) = true := by
        simp [pyRowLe, hcmp]
      have h2 : rowIdLe (Cell.int ma :: ra) (Cell.int mb :: rb) = true := by
        simp only [rowIdLe, hma, hmb]
        exact decide_eq_true (le_of_lt hlt)
      rw [h1, h2]
    · exact absurd (compare_eq_iff_eq.mp h) hid
    · have hgt := compare_gt_iff_gt.mp h
      rw [h] at hcmp
      have h1 : pyRowLe (Cell.int ma :: ra) (Cell.int mb :: rb) = false := by
        simp [pyRowLe, hcmp]
      have h2 : rowIdLe (Cell.int ma :: ra) (Cell.int mb :: rb) = false := by
        simp only [rowIdLe, hma, hmb]
        exact decide_eq_false (not_le.mpr hgt)
      rw [h1, h2]

theorem getD_map_lt (f : α → β) (l : List α) (i : Nat) (hi : i < l.length)
    (d : β) (d0 : α) : (l.map f).getD i d = f (l.getD i d0) := by
  rw [List.getD_eq_getElem?_getD, List.getElem?_map,
    List.getD_eq_getElem?_getD, List.getElem?_eq_getElem hi]
  simp

theorem getD_eq_getElem_of_lt (l : List α) (i : Nat) (hi : i < l.length)
    (d : α) : l.getD i d = l.get ⟨i, hi⟩ := by
  rw [List.getD_eq_getElem?_getD, List.getElem?_eq_getElem hi]
  rfl

/-- Shape of row `i` of the transposed table: the id cell, the player
cell, the target cell, then one cell per distributed non-player list. -/
theorem orgaRow_structure (r : Rand) (players : List String)
    (others : List (List String)) (i : Nat) (hi : i < players.length)
    (hol : ∀ o ∈ others, o.length = players.length) :
    (orgaCols r players others).map (fun c => c.getD i (.int 0)) =
      Cell.int (Int.ofNat
          ((applyPerm r.idPerm (List.range players.length)).getD i 0)) ::
        Cell.str ((applyPerm r.playerPerm players).getD i "") ::
          Cell.str ((targetList (applyPerm r.playerPerm players)).getD i "") ::
            others.map (fun o => Cell.str (o.getD i "")) := by
  unfold orgaCols
  simp only [List.map_cons]
  congr 1
  · exact getD_map_lt _ _ i
      (by rw [applyPerm_length, List.length_range]; exact hi) _ 0
  congr 1
  · exact getD_map_lt _ _ i (by rw [applyPerm_length]; exact hi) _ ""
  congr 1
  · exact getD_map_lt _ _ i
      (by rw [targetList_length, applyPerm_length]; exact hi) _ ""
  · rw [List.map_map]
    apply List.map_congr_left
    intro o ho
    exact getD_map_lt Cell.str o i (by rw [hol o ho]; exact hi) _ ""

/-! ### Claim C4 -/

/-- Claim C4: on every successful run, the ids of the sorted table read
off as exactly `0, 1, ..., N-1` in order — they form a permutation of
`{0, ..., N-1}` and the rows are in ascending id order, so row `i`
carries id `i`; moreover (second conjunct) on any rows whose heads are
pairwise distinct integer ids, the whole-row sort of the code orders
exactly as the spec's comparator keyed solely on the numeric id. -/
theorem c4_ids_sorted (fd : List (DataField × List String)) (r : Rand)
    (t : PyTable) (h : createOrga fd r = .ok t) :
    t.map rowId = (List.range (playersOf fd).length).map Int.ofNat ∧
    (∀ rows : PyTable, (∀ row ∈ rows, ∃ m rest, row = Cell.int m :: rest) →
      (rows.map rowId).Nodup →
      pySort pyRowLe rows = pySort rowIdLe rows) := by
  have hcongr : ∀ rows : PyTable,
      (∀ row ∈ rows, ∃ m rest, row = Cell.int m :: rest) →
      (rows.map rowId).Nodup →
      pySort pyRowLe rows = pySort rowIdLe rows := by
    intro rows hh hn
    exact pySort_congr _ _ rows (pyRowLe_eq_rowIdLe rows hh hn)
  refine ⟨?_, hcongr⟩
  obtain ⟨pf, others, hpf, hfil, hml, hol, hne, hcols, ht, hlen, hwidth⟩ :=
    createOrga_ok_parts fd r t h
  have hplayers : playersOf fd = fieldLookup fd pf.name := by
    unfold playersOf
    rw [hpf]
  rw [hplayers]
  have hidlen : (applyPerm r.idPerm
      (List.range (fieldLookup fd pf.name).length)).length =
      (fieldLookup fd pf.name).length := by
    rw [applyPerm_length, List.length_range]
  have hidsperm := applyPerm_perm r.idPerm
    (List.range (fieldLookup fd pf.name).length)
  have hidnodup : (applyPerm r.idPerm
      (List.range (fieldLookup fd pf.name).length)).Nodup :=
    hidsperm.nodup_iff.mpr (List.nodup_range _)
  have hrowstruct : ∀ row ∈ (List.range (fieldLookup fd pf.name).length).map
      (fun i => (orgaCols r (fieldLookup fd pf.name) others).map
        (fun c => c.getD i (.int 0))),
      ∃ m rest, row = Cell.int m :: rest := by
    intro row hrow
    obtain ⟨i, hi, hrow⟩ := List.mem_map.mp hrow
    have hilt := List.mem_range.mp hi
    rw [← hrow, orgaRow_structure r _ others i hilt hol]
    exact ⟨_, _, rfl⟩
  have hmaprow : ((List.range (fieldLookup fd pf.name).length).map
      (fun i => (orgaCols r (fieldLookup fd pf.name) others).map
        (fun c => c.getD i (.int 0)))).map rowId =
      (applyPerm r.idPerm
        (List.range (fieldLookup fd pf.name).length)).map Int.ofNat := by
    rw [List.map_map]
    apply List.ext_getElem
    · simp [hidlen]
    · intro i h1 h2
      simp only [List.getElem_map, List.getElem_range, Function.comp_apply]
      rw [orgaRow_structure r _ others i
        (by simpa using h1) hol]
      show Int.ofNat _ = Int.ofNat _
      congr 1
      rw [getD_eq_getElem_of_lt _ i (by rw [hidlen]; simpa using h1) 0]
      rfl
  have hrownodup : (((List.range (fieldLookup fd pf.name).length).map
      (fun i => (orgaCols r (fieldLookup fd pf.name) others).map
        (fun c => c.getD i (.int 0)))).map rowId).Nodup := by
    rw [hmaprow]
    exact hidnodup.map (fun a b hab => Int.ofNat_inj.mp hab)
  have hteq : t = pySort rowIdLe
      ((List.range (fieldLookup fd pf.name).length).map
        (fun i => (orgaCols r (fieldLookup fd pf.name) others).map
          (fun c => c.getD i (.int 0)))) := by
    rw [ht]
    exact hcongr _ hrowstruct hrownodup
  have htrans : ∀ a b c : List Cell, rowIdLe a b = true →
      rowIdLe b c = true → rowIdLe a c = true := by
    intro a b c h1 h2
    unfold rowIdLe at h1 h2 ⊢
    exact decide_eq_true (le_trans (of_decide_eq_true h1) (of_decide_eq_true h2))
  have htot : ∀ a b : List Cell, rowIdLe a b = true ∨ rowIdLe b a = true := by
    intro a b
    unfold rowIdLe
    rcases le_total (rowId a) (rowId b) with h1 | h1
    · exact Or.inl (decide_eq_true h1)
    · exact Or.inr (decide_eq_true h1)
  have htperm : List.Perm (t.map rowId)
      ((List.range (fieldLookup fd pf.name).length).map Int.ofNat) := by
    rw [hteq]
    exact ((pySort_perm rowIdLe _).map rowId).trans
      (by rw [hmaprow]; exact hidsperm.map _)
  have hrangenodup : ((List.range
      (fieldLookup fd pf.name).length).map Int.ofNat).Nodup :=
    (List.nodup_range _).map (fun a b hab => Int.ofNat_inj.mp hab)
  have htnodup : (t.map rowId).Nodup := htperm.nodup_iff.mpr hrangenodup
  have htpair : (t.map rowId).Pairwise (· < ·) := by
    have h1 : (t.map rowId).Pairwise (fun x y : Int => x ≤ y) := by
      rw [hteq]
      refine List.pairwise_map.mpr ?_
      exact (pySort_pairwise rowIdLe htrans htot _).imp
        (fun hxy => of_decide_eq_true hxy)
    exact (h1.and htnodup).imp (fun hxy => lt_of_le_of_ne hxy.1 hxy.2)
  have hrangepair : (((List.range
      (fieldLookup fd pf.name).length).map Int.ofNat)).Pairwise (· < ·) :=
    List.pairwise_map.mpr ((List.pairwise_lt_range _).imp
      (fun hab => Int.ofNat_lt.mpr hab))
  haveI : IsAntisymm Int (· < ·) :=
    ⟨fun a b h1 h2 => absurd h2 (not_lt.mpr (le_of_lt h1))⟩
  exact List.eq_of_perm_of_sorted htperm htpair hrangepair

/-- Witness for claim C4 at a concrete input. -/
theorem c4_witness :
    createOrga [(playerField, ["Ann", "Bob"])] rand0 =
      .ok [[.int 0, .str "Ann", .str "Bob"],
        [.int 1, .str "Bob", .str "Ann"]] ∧
    (([[Cell.int 0, Cell.str "Ann", Cell.str "Bob"],
        [Cell.int 1, Cell.str "Bob", Cell.str "Ann"]] : PyTable).map rowId =
      (List.range (playersOf [(playerField, ["Ann", "Bob"])]).length).map
        Int.ofNat ∧
    (∀ rows : PyTable, (∀ row ∈ rows, ∃ m rest, row = Cell.int m :: rest) →
      (rows.map rowId).Nodup →
      pySort pyRowLe rows = pySort rowIdLe rows)) :=
  ⟨rfl, c4_ids_sorted [(playerField, ["Ann", "Bob"])] rand0 _ rfl⟩

/-! ### Claim C1 -/

theorem find?_eq_some_of_unique (p : α → Bool) (l : List α) (x : α)
    (hx : x ∈ l) (hpx : p x = true)
    (huniq : ∀ y ∈ l, p y = true → y = x) :
    l.find? p = some x := by
  induction l with
  | nil => cases hx
  | cons a tl ih =>
    by_cases hpa : p a = true
    · have ha : a = x := huniq a (by simp) hpa
      subst ha
      rw [List.find?_cons_of_pos _ hpa]
    · have hax : ¬a = x := by
        intro hax
        exact hpa (hax ▸ hpx)
      rcases List.mem_cons.mp hx with rfl | hx2
      · exact absurd rfl hax
      · rw [List.find?_cons_of_neg _ (by simpa using hpa)]
        exact ih hx2 (fun y hy hpy => huniq y (by simp [hy]) hpy)

theorem nodup_getD_inj (pl : List String) (h : pl.Nodup) (i j : Nat)
    (hi : i < pl.length) (hj : j < pl.length)
    (heq : pl.getD i "" = pl.getD j "") : i = j := by
  rw [getD_eq_getElem_of_lt _ i hi, getD_eq_getElem_of_lt _ j hj] at heq
  have h2 := (List.Nodup.get_inj_iff h).mp heq
  exact congrArg Fin.val h2

theorem mod_add_ne (n i k : Nat) (hi : i < n) (hk0 : 0 < k) (hkn : k < n) :
    (i + k) % n ≠ i := by
  rcases Nat.lt_or_ge (i + k) n with hlt | hge
  · rw [Nat.mod_eq_of_lt hlt]
    omega
  · have h2 : i + k - n < n := by omega
    have : (i + k) % n = i + k - n := by
      rw [Nat.mod_eq_sub_mod hge, Nat.mod_eq_of_lt h2]
    rw [this]
    omega

theorem stepIter_shift (t : PyTable) (pl : List String)
    (hstep : ∀ i, i < pl.length → tableStep t (pl.getD i "") =
      some (pl.getD ((i + 1) % pl.length) "")) :
    ∀ k i, i < pl.length →
      stepIter t k (pl.getD i "") = some (pl.getD ((i + k) % pl.length) "") := by
  intro k
  induction k with
  | zero =>
    intro i hi
    show some _ = some _
    rw [Nat.add_zero, Nat.mod_eq_of_lt hi]
  | succ k ih =>
    intro i hi
    have hn : 0 < pl.length := Nat.lt_of_le_of_lt (Nat.zero_le i) hi
    show (tableStep t (pl.getD i "")).bind (stepIter t k) = _
    rw [hstep i hi]
    show stepIter t k (pl.getD ((i + 1) % pl.length) "") = _
    rw [ih ((i + 1) % pl.length) (Nat.mod_lt _ hn), Nat.mod_add_mod,
      show i + 1 + k = i + (k + 1) by omega]

/-- Claim C1 amended: on every successful run whose player entries are
pairwise distinct and number at least two, no row targets itself, and
following the target relation from any row first returns to that row
after exactly `N` steps (a single `N`-cycle). -/
theorem c1_single_cycle (fd : List (DataField × List String)) (r : Rand)
    (t : PyTable) (h : createOrga fd r = .ok t)
    (hnodup : (playersOf fd).Nodup) (hN : 2 ≤ (playersOf fd).length) :
    (∀ row ∈ t, ∀ s, rowPlayerName row = some s →
      rowTargetName row ≠ some s) ∧
    (∀ row ∈ t, ∀ s, rowPlayerName row = some s →
      stepIter t (playersOf fd).length s = some s ∧
      ∀ k, 0 < k → k < (playersOf fd).length → stepIter t k s ≠ some s) := by
  obtain ⟨pf, others, hpf, hfil, hml, hol, hne, hcols, ht, hlen, hwidth⟩ :=
    createOrga_ok_parts fd r t h
  have hplayers : playersOf fd = fieldLookup fd pf.name := by
    unfold playersOf
    rw [hpf]
  rw [hplayers] at hnodup hN ⊢
  have hplperm := applyPerm_perm r.playerPerm (fieldLookup fd pf.name)
  have hpllen : (applyPerm r.playerPerm (fieldLookup fd pf.name)).length =
      (fieldLookup fd pf.name).length := applyPerm_length _ _
  have hplnodup : (applyPerm r.playerPerm (fieldLookup fd pf.name)).Nodup :=
    hplperm.nodup_iff.mpr hnodup
  have hN2 : 2 ≤ (applyPerm r.playerPerm (fieldLookup fd pf.name)).length := by
    rw [hpllen]
    exact hN
  have hperm_t_rows : List.Perm t
      ((List.range (fieldLookup fd pf.name).length).map
        (fun i => (orgaCols r (fieldLookup fd pf.name) others).map
          (fun c => c.getD i (.int 0)))) := by
    rw [ht]
    exact pySort_perm _ _
  have hrowmem : ∀ row ∈ t, ∃ i, i < (fieldLookup fd pf.name).length ∧
      row = (orgaCols r (fieldLookup fd pf.name) others).map
        (fun c => c.getD i (.int 0)) := by
    intro row hrow
    have := hperm_t_rows.mem_iff.mp hrow
    obtain ⟨i, hi, hieq⟩ := List.mem_map.mp this
    exact ⟨i, List.mem_range.mp hi, hieq.symm⟩
  have hplayer_i : ∀ i, i < (fieldLookup fd pf.name).length →
      rowPlayerName ((orgaCols r (fieldLookup fd pf.name) others).map
        (fun c => c.getD i (.int 0))) =
      some ((applyPerm r.playerPerm (fieldLookup fd pf.name)).getD i "") := by
    intro i hi
    rw [orgaRow_structure r _ others i hi hol]
    rfl
  have htarget_i : ∀ i, i < (fieldLookup fd pf.name).length →
      rowTargetName ((orgaCols r (fieldLookup fd pf.name) others).map
        (fun c => c.getD i (.int 0))) =
      some ((applyPerm r.playerPerm (fieldLookup fd pf.name)).getD
        ((i + 1) % (applyPerm r.playerPerm (fieldLookup fd pf.name)).length)
        "") := by
    intro i hi
    rw [orgaRow_structure r _ others i hi hol]
    show some _ = some _
    congr 1
    exact (c2_targets_rotated_left _ i (by rw [hpllen]; exact hi)).2
  have hstep : ∀ i,
      i < (applyPerm r.playerPerm (fieldLookup fd pf.name)).length →
      tableStep t ((applyPerm r.playerPerm (fieldLookup fd pf.name)).getD i "") =
      some ((applyPerm r.playerPerm (fieldLookup fd pf.name)).getD
        ((i + 1) % (applyPerm r.playerPerm (fieldLookup fd pf.name)).length)
        "") := by
    intro i hi
    have hin : i < (fieldLookup fd pf.name).length := by
      rw [← hpllen]
      exact hi
    unfold tableStep
    rw [find?_eq_some_of_unique _ t
      ((orgaCols r (fieldLookup fd pf.name) others).map
        (fun c => c.getD i (.int 0))) ?hmem ?hpred ?huniq]
    case hmem =>
      refine hperm_t_rows.mem_iff.mpr ?_
      exact List.mem_map.mpr ⟨i, List.mem_range.mpr hin, rfl⟩
    case hpred =>
      rw [hplayer_i i hin]
      exact beq_self_eq_true _
    case huniq =>
      intro y hy hpy
      obtain ⟨j, hj, hyeq⟩ := hrowmem y hy
      subst hyeq
      rw [hplayer_i j hj] at hpy
      have heq := eq_of_beq hpy
      injection heq with heq
      have hji : j = i := nodup_getD_inj _ hplnodup j i
        (by rw [hpllen]; exact hj) hi heq
      rw [hji]
    show rowTargetName _ = _
    exact htarget_i i hin
  refine ⟨?_, ?_⟩
  · intro row hrow s hs ht2
    obtain ⟨i, hi, hieq⟩ := hrowmem row hrow
    subst hieq
    rw [hplayer_i i hi] at hs
    injection hs with hs
    rw [htarget_i i hi] at ht2
    injection ht2 with ht2
    rw [← hs] at ht2
    have hii := nodup_getD_inj _ hplnodup _ _
      (Nat.mod_lt _ (by omega)) (by rw [hpllen]; exact hi) ht2
    exact mod_add_ne _ i 1 (by rw [← hpllen] at hi; exact hi) Nat.one_pos
      (by omega) hii
  · intro row hrow s hs
    obtain ⟨i, hi, hieq⟩ := hrowmem row hrow
    subst hieq
    rw [hplayer_i i hi] at hs
    injection hs with hs
    subst hs
    have hin : i < (applyPerm r.playerPerm (fieldLookup fd pf.name)).length := by
      rw [hpllen]
      exact hi
    constructor
    · have := stepIter_shift t _ hstep (fieldLookup fd pf.name).length i hin
      rw [this]
      congr 1
      rw [hpllen, Nat.add_mod_right, Nat.mod_eq_of_lt hi]
    · intro k hk0 hkn heq
      have := stepIter_shift t _ hstep k i hin
      rw [this] at heq
      injection heq with heq
      have hii := nodup_getD_inj _ hplnodup _ _
        (Nat.mod_lt _ (by omega)) hin heq
      exact mod_add_ne _ i k hin hk0 (by rw [hpllen]; exact hkn) hii

/-- Counterexample to claim C1 as stated: a run with `N = 2` participants
whose entries are the same string succeeds, and its first row targets
itself — the rotate-by-one construction only deranges distinct names. -/
theorem c1_counterexample :
    createOrga [(playerField, ["Ann", "Ann"])] rand0 =
      .ok [[.int 0, .str "Ann", .str "Ann"],
        [.int 1, .str "Ann", .str "Ann"]] ∧
    2 ≤ (playersOf [(playerField, ["Ann", "Ann"])]).length ∧
    rowPlayerName [Cell.int 0, Cell.str "Ann", Cell.str "Ann"] = some "Ann" ∧
    rowTargetName [Cell.int 0, Cell.str "Ann", Cell.str "Ann"] = some "Ann" :=
  ⟨rfl, by decide, rfl, rfl⟩

/-- Witness for claim C1 at a concrete input. -/
theorem c1_witness :
    createOrga [(playerField, ["Ann", "Bob"])] rand0 =
      .ok [[.int 0, .str "Ann", .str "Bob"],
        [.int 1, .str "Bob", .str "Ann"]] ∧
    (playersOf [(playerField, ["Ann", "Bob"])]).Nodup ∧
    2 ≤ (playersOf [(playerField, ["Ann", "Bob"])]).length ∧
    ((∀ row ∈ ([[Cell.int 0, Cell.str "Ann", Cell.str "Bob"],
        [Cell.int 1, Cell.str "Bob", Cell.str "Ann"]] : PyTable),
      ∀ s, rowPlayerName row = some s → rowTargetName row ≠ some s) ∧
    (∀ row ∈ ([[Cell.int 0, Cell.str "Ann", Cell.str "Bob"],
        [Cell.int 1, Cell.str "Bob", Cell.str "Ann"]] : PyTable),
      ∀ s, rowPlayerName row = some s →
      stepIter [[Cell.int 0, Cell.str "Ann", Cell.str "Bob"],
        [Cell.int 1, Cell.str "Bob", Cell.str "Ann"]]
        (playersOf [(playerField, ["Ann", "Bob"])]).length s = some s ∧
      ∀ k, 0 < k → k < (playersOf [(playerField, ["Ann", "Bob"])]).length →
        stepIter [[Cell.int 0, Cell.str "Ann", Cell.str "Bob"],
          [Cell.int 1, Cell.str "Bob", Cell.str "Ann"]] k s ≠ some s)) :=
  ⟨rfl, by decide, by decide,
    c1_single_cycle [(playerField, ["Ann", "Bob"])] rand0 _ rfl
      (by decide) (by decide)⟩

/-! ### Codec lemmas: base64 -/

theorem b64Val_b64Char : ∀ n, n < 64 → b64Val (b64Char n) = some n := by
  decide

theorem b64Char_ne_pad : ∀ n, n < 64 → b64Char n ≠ '=' := by
  decide

theorem isB64OrPad_b64Char : ∀ n, n < 64 → isB64OrPad (b64Char n) = true := by
  decide

theorem b64encode_all_b64 (bs : List Nat) (h : ∀ b ∈ bs, b < 256) :
    ∀ c ∈ b64encodeBytes bs, isB64OrPad c = true := by
  induction bs using b64encodeBytes.induct with
  | case1 b1 b2 b3 rest ih =>
    have h1 : b1 < 256 := h b1 (by simp)
    have h2 : b2 < 256 := h b2 (by simp)
    have h3 : b3 < 256 := h b3 (by simp)
    intro c hc
    rw [b64encodeBytes] at hc
    simp only [List.mem_cons] at hc
    rcases hc with hc | hc | hc | hc | hc
    · exact hc ▸ isB64OrPad_b64Char _ (by omega)
    · exact hc ▸ isB64OrPad_b64Char _ (by omega)
    · exact hc ▸ isB64OrPad_b64Char _ (by omega)
    · exact hc ▸ isB64OrPad_b64Char _ (by omega)
    · exact ih (fun b hb => h b (by simp [hb])) c hc
  | case2 b1 b2 =>
    have h1 : b1 < 256 := h b1 (by simp)
    have h2 : b2 < 256 := h b2 (by simp)
    intro c hc
    rw [b64encodeBytes] at hc
    simp only [List.mem_cons, List.not_mem_nil, or_false] at hc
    rcases hc with hc | hc | hc | hc
    · exact hc ▸ isB64OrPad_b64Char _ (by omega)
    · exact hc ▸ isB64OrPad_b64Char _ (by omega)
    · exact hc ▸ isB64OrPad_b64Char _ (by omega)
    · simp [hc, isB64OrPad]
  | case3 b1 =>
    have h1 : b1 < 256 := h b1 (by simp)
    intro c hc
    rw [b64encodeBytes] at hc
    simp only [List.mem_cons, List.not_mem_nil, or_false] at hc
    rcases hc with hc | hc | hc | hc
    · exact hc ▸ isB64OrPad_b64Char _ (by omega)
    · exact hc ▸ isB64OrPad_b64Char _ (by omega)
    · simp [hc, isB64OrPad]
    · simp [hc, isB64OrPad]
  | case4 =>
    intro c hc
    cases hc

theorem b64encode_filter (bs : List Nat) (h : ∀ b ∈ bs, b < 256) :
    (b64encodeBytes bs).filter isB64OrPad = b64encodeBytes bs :=
  List.filter_eq_self.mpr (b64encode_all_b64 bs h)

theorem b64decode_encode (bs : List Nat) (h : ∀ b ∈ bs, b < 256) :
    b64decodeChars (b64encodeBytes bs) = some bs := by
  induction bs using b64encodeBytes.induct with
  | case1 b1 b2 b3 rest ih =>
    have h1 : b1 < 256 := h b1 (by simp)
    have h2 : b2 < 256 := h b2 (by simp)
    have h3 : b3 < 256 := h b3 (by simp)
    have hv1 := b64Val_b64Char (b1 / 4) (by omega)
    have hv2 := b64Val_b64Char (b1 % 4 * 16 + b2 / 16) (by omega)
    have hv3 := b64Val_b64Char (b2 % 16 * 4 + b3 / 64) (by omega)
    have hv4 := b64Val_b64Char (b3 % 64) (by omega)
    have hp3 := b64Char_ne_pad (b2 % 16 * 4 + b3 / 64) (by omega)
    have hp4 := b64Char_ne_pad (b3 % 64) (by omega)
    have hrec := ih (fun b hb => h b (by simp [hb]))
    simp only [b64encodeBytes, b64decodeChars, hv1, hv2, hv3, hv4, hp3, hp4,
      if_false, hrec, Option.map_some', Option.some.injEq, List.cons.injEq,
      eq_self_iff_true, if_true, and_self, and_true, true_and]
    and_intros <;> omega
  | case2 b1 b2 =>
    have h1 : b1 < 256 := h b1 (by simp)
    have h2 : b2 < 256 := h b2 (by simp)
    have hv1 := b64Val_b64Char (b1 / 4) (by omega)
    have hv2 := b64Val_b64Char (b1 % 4 * 16 + b2 / 16) (by omega)
    have hv3 := b64Val_b64Char (b2 % 16 * 4) (by omega)
    have hp3 := b64Char_ne_pad (b2 % 16 * 4) (by omega)
    simp only [b64encodeBytes, b64decodeChars, hv1, hv2, hv3, hp3, if_false,
      Option.some.injEq, List.cons.injEq, eq_self_iff_true, if_true, and_self,
      and_true, true_and]
    and_intros <;> omega
  | case3 b1 =>
    have h1 : b1 < 256 := h b1 (by simp)
    have hv1 := b64Val_b64Char (b1 / 4) (by omega)
    have hv2 := b64Val_b64Char (b1 % 4 * 16) (by omega)
    simp only [b64encodeBytes, b64decodeChars, hv1, hv2, Option.some.injEq,
      List.cons.injEq, eq_self_iff_true, if_true, and_self, and_true, true_and]
    omega
  | case4 => rfl

/-! ### Codec lemmas: UTF-8 on ASCII output -/

theorem utf8EncodeChar_ascii (c : Char) (h : c.toNat < 0x80) :
    utf8EncodeChar c = [c.toNat] := by
  unfold utf8EncodeChar
  rw [if_pos h]

theorem char_valid_nat (c : Char) :
    c.toNat < 0xd800 ∨ (0xdfff < c.toNat ∧ c.toNat < 0x110000) := by
  rcases c.valid with h | ⟨hh1, hh2⟩
  · exact Or.inl (UInt32.toNat_lt_of_lt (by decide) h)
  · exact Or.inr ⟨UInt32.lt_toNat_of_lt (by decide) hh1,
      UInt32.toNat_lt_of_lt (by decide) hh2⟩

theorem utf8EncodeChar_bytes_lt (c : Char) : ∀ b ∈ utf8EncodeChar c, b < 256 := by
  have hv : c.toNat < 0x110000 := by
    rcases char_valid_nat c with h | h
    · omega
    · omega
  unfold utf8EncodeChar
  split
  · intro b hb
    simp at hb
    omega
  split
  · intro b hb
    simp at hb
    rcases hb with hb | hb <;> omega
  split
  · intro b hb
    simp at hb
    rcases hb with hb | hb | hb <;> omega
  · intro b hb
    simp at hb
    rcases hb with hb | hb | hb | hb <;> omega

theorem utf8Encode_bytes_lt (s : String) : ∀ b ∈ utf8Encode s, b < 256 := by
  intro b hb
  unfold utf8Encode at hb
  obtain ⟨l, hl, hbl⟩ := List.mem_flatten.mp hb
  obtain ⟨c, _, hcl⟩ := List.mem_map.mp hl
  exact utf8EncodeChar_bytes_lt c b (hcl ▸ hbl)

theorem utf8DecodeLoop_encode_ascii (cs : List Char)
    (h : ∀ c ∈ cs, c.toNat < 0x80) (fuel : Nat)
    (hfuel : ((cs.map utf8EncodeChar).flatten).length ≤ fuel) :
    utf8DecodeLoop fuel ((cs.map utf8EncodeChar).flatten) = some cs := by
  induction cs generalizing fuel with
  | nil => cases fuel <;> rfl
  | cons c t ih =>
    have hc : c.toNat < 0x80 := h c (by simp)
    rw [List.map_cons, List.flatten_cons, utf8EncodeChar_ascii c hc,
      List.cons_append, List.nil_append] at hfuel ⊢
    cases fuel with
    | zero =>
      rw [List.length_cons] at hfuel
      omega
    | succ fuel =>
      have hone : utf8DecodeOne
          (c.toNat :: (t.map utf8EncodeChar).flatten) =
          some (Char.ofNat c.toNat, (t.map utf8EncodeChar).flatten) := by
        simp only [utf8DecodeOne]
        rw [if_pos hc]
      rw [utf8DecodeLoop, hone]
      show (utf8DecodeLoop fuel ((t.map utf8EncodeChar).flatten)).map
        (fun cs => Char.ofNat c.toNat :: cs) = some (c :: t)
      rw [ih (fun x hx => h x (by simp [hx])) fuel
        (by rw [List.length_cons] at hfuel; omega)]
      show some _ = some _
      rw [Char.ofNat_toNat]

theorem utf8Decode_encode_ascii (s : String)
    (h : ∀ c ∈ s.data, c.toNat < 0x80) :
    utf8Decode (utf8Encode s) = some s.data :=
  utf8DecodeLoop_encode_ascii s.data h _ le_rfl

/-! ### Codec lemmas: character arithmetic -/

theorem toNat_ofNat_valid (n : Nat) (h : n.isValidChar) :
    (Char.ofNat n).toNat = n := by
  rw [Char.ofNat, dif_pos h]
  rfl

theorem toNat_ofNat_small (n : Nat) (h : n < 0xd800) :
    (Char.ofNat n).toNat = n :=
  toNat_ofNat_valid n (Or.inl h)

theorem hexDigit_ascii : ∀ d, d < 16 → (hexDigit d).toNat < 0x80 := by
  decide

theorem hexVal_hexDigit : ∀ d, d < 16 → hexVal (hexDigit d) = some d := by
  decide

theorem hex4_ascii (n : Nat) : ∀ x ∈ hex4 n, x.toNat < 0x80 := by
  intro x hx
  unfold hex4 at hx
  simp only [List.mem_cons, List.not_mem_nil, or_false] at hx
  rcases hx with h | h | h | h <;>
    (subst h; exact hexDigit_ascii _ (Nat.mod_lt _ (by omega)))

theorem digitChar_isDigit : ∀ d, d < 10 → (Char.ofNat (48 + d)).isDigit = true := by
  decide

theorem digitChar_toNat (d : Nat) (h : d < 10) :
    (Char.ofNat (48 + d)).toNat = 48 + d :=
  toNat_ofNat_small (48 + d) (by omega)

/-! ### Codec lemmas: the decimal rendering parses back -/

theorem natToDigits_ne_nil (n : Nat) : natToDigits n ≠ [] := by
  unfold natToDigits
  split
  · simp
  · simp

theorem natToDigits_all_digits (n : Nat) :
    ∀ c ∈ natToDigits n, c.isDigit = true := by
  induction n using natToDigits.induct with
  | case1 n h =>
    intro c hc
    unfold natToDigits at hc
    rw [if_pos h] at hc
    simp only [List.mem_cons, List.not_mem_nil, or_false] at hc
    subst hc
    exact digitChar_isDigit n h
  | case2 n h ih =>
    intro c hc
    unfold natToDigits at hc
    rw [if_neg h] at hc
    rcases List.mem_append.mp hc with hc | hc
    · exact ih c hc
    · simp only [List.mem_cons, List.not_mem_nil, or_false] at hc
      subst hc
      exact digitChar_isDigit _ (Nat.mod_lt _ (by omega))

theorem natToDigits_ascii (n : Nat) :
    ∀ x ∈ natToDigits n, x.toNat < 0x80 := by
  induction n using natToDigits.induct with
  | case1 n h =>
    intro x hx
    unfold natToDigits at hx
    rw [if_pos h] at hx
    simp only [List.mem_cons, List.not_mem_nil, or_false] at hx
    subst hx
    rw [digitChar_toNat n h]
    omega
  | case2 n h ih =>
    intro x hx
    unfold natToDigits at hx
    rw [if_neg h] at hx
    rcases List.mem_append.mp hx with hx | hx
    · exact ih x hx
    · simp only [List.mem_cons, List.not_mem_nil, or_false] at hx
      subst hx
      rw [digitChar_toNat _ (Nat.mod_lt _ (by omega))]
      omega

theorem natToDigits_head_ne_zero (n : Nat) (hn : n ≠ 0) :
    ∀ c, (natToDigits n).head? = some c → ¬c = '0' := by
  induction n using natToDigits.induct with
  | case1 n h =>
    intro c hc hc0
    unfold natToDigits at hc
    rw [if_pos h] at hc
    injection hc with hc
    subst hc0
    have := digitChar_toNat n h
    have h0 : ('0' : Char).toNat = 48 := by decide
    rw [hc] at this
    omega
  | case2 n h ih =>
    intro c hc
    unfold natToDigits at hc
    rw [if_neg h] at hc
    rcases hd : natToDigits (n / 10) with _ | ⟨d, ds⟩
    · exact absurd hd (natToDigits_ne_nil _)
    · rw [hd] at hc
      simp only [List.cons_append, List.head?_cons] at hc
      refine ih (by omega) c ?_
      rw [hd]
      exact hc

theorem parseDigitsAux_run (ds : List Char) (hds : ∀ c ∈ ds, c.isDigit = true) :
    ∀ (acc : Nat) (rest : List Char),
      parseDigitsAux acc (ds ++ rest) =
        parseDigitsAux (ds.foldl (fun a c => a * 10 + (c.toNat - 48)) acc) rest := by
  induction ds with
  | nil => intro acc rest; rfl
  | cons c t ih =>
    intro acc rest
    rw [List.cons_append, parseDigitsAux, if_pos (hds c (by simp)),
      List.foldl_cons]
    exact ih (fun x hx => hds x (by simp [hx])) _ rest

theorem parseDigitsAux_stop (acc : Nat) (rest : List Char)
    (h : ∀ c, rest.head? = some c → c.isDigit = false) :
    parseDigitsAux acc rest = (acc, rest) := by
  cases rest with
  | nil => rfl
  | cons c t =>
    rw [parseDigitsAux, if_neg]
    rw [h c rfl]
    simp

theorem foldl_natToDigits (n : Nat) :
    ∀ acc : Nat, (natToDigits n).foldl (fun a c => a * 10 + (c.toNat - 48)) acc =
      acc * 10 ^ (natToDigits n).length + n := by
  induction n using natToDigits.induct with
  | case1 n h =>
    intro acc
    unfold natToDigits
    rw [if_pos h]
    simp only [List.foldl_cons, List.foldl_nil, List.length_cons,
      List.length_nil]
    rw [digitChar_toNat n h]
    omega
  | case2 n h ih =>
    intro acc
    unfold natToDigits
    rw [if_neg h]
    rw [List.foldl_append, List.length_append, ih acc]
    simp only [List.foldl_cons, List.foldl_nil, List.length_cons,
      List.length_nil]
    rw [digitChar_toNat _ (Nat.mod_lt _ (by omega))]
    have hpow : 10 ^ ((natToDigits (n / 10)).length + (0 + 1)) =
        10 ^ (natToDigits (n / 10)).length * 10 := by
      rw [pow_succ]
    rw [hpow]
    have : (acc * 10 ^ (natToDigits (n / 10)).length + n / 10) * 10 +
        (48 + n % 10 - 48) =
        acc * (10 ^ (natToDigits (n / 10)).length * 10) + (n / 10 * 10 + n % 10) := by
      ring_nf
      omega
    rw [this]
    congr 1
    omega

theorem parseNat_natToDigits (n : Nat) (rest : List Char)
    (hrest : ∀ c, rest.head? = some c → c.isDigit = false) :
    parseNat (natToDigits n ++ rest) = some (n, rest) := by
  rcases Nat.lt_or_ge n 10 with h10 | h10
  · rw [show natToDigits n = [Char.ofNat (48 + n)] by
      unfold natToDigits; rw [if_pos h10]]
    by_cases h0 : n = 0
    · subst h0
      show parseNat ('0' :: rest) = _
      rw [parseNat.eq_def]
      simp only []
      rw [if_pos trivial]
      cases hr : rest with
      | nil => rfl
      | cons d t =>
        show (if d.isDigit = true then none else some (0, d :: t)) =
          some (0, d :: t)
        rw [hrest d (by rw [hr]; rfl)]
        simp
    · rw [List.cons_append, parseNat.eq_def]
      simp only []
      rw [if_neg, if_pos (digitChar_isDigit n h10)]
      · rw [digitChar_toNat n h10]
        rw [show 48 + n - 48 = n by omega, List.nil_append]
        rw [parseDigitsAux_stop n rest hrest]
      · intro hc
        have := digitChar_toNat n h10
        rw [hc] at this
        have h48 : ('0' : Char).toNat = 48 := by decide
        omega
  · rcases hd : natToDigits n with _ | ⟨c0, ds⟩
    · exact absurd hd (natToDigits_ne_nil n)
    · have hne0 : ¬c0 = '0' :=
        natToDigits_head_ne_zero n (by omega) c0 (by rw [hd]; rfl)
      have hdig : c0.isDigit = true :=
        natToDigits_all_digits n c0 (by rw [hd]; simp)
      rw [List.cons_append, parseNat.eq_def]
      simp only []
      rw [if_neg hne0, if_pos hdig]
      have hds : ∀ c ∈ ds, c.isDigit = true := by
        intro c hc
        exact natToDigits_all_digits n c (by rw [hd]; simp [hc])
      rw [parseDigitsAux_run ds hds _ rest, parseDigitsAux_stop _ rest hrest]
      have hfold := foldl_natToDigits n 0
      rw [hd] at hfold
      simp only [List.foldl_cons, Nat.zero_mul, Nat.zero_add] at hfold
      rw [hfold]

/-! ### Codec lemmas: the serialized text is pure ASCII -/

theorem escapeChar_ascii (c : Char) : ∀ x ∈ escapeChar c, x.toNat < 0x80 := by
  intro x hx
  unfold escapeChar at hx
  split at hx
  · simp only [List.mem_cons, List.not_mem_nil, or_false] at hx
    rcases hx with h | h <;> (subst h; decide)
  split at hx
  · simp only [List.mem_cons, List.not_mem_nil, or_false] at hx
    rcases hx with h | h <;> (subst h; decide)
  split at hx
  · simp only [List.mem_cons, List.not_mem_nil, or_false] at hx
    rcases hx with h | h <;> (subst h; decide)
  split at hx
  · simp only [List.mem_cons, List.not_mem_nil, or_false] at hx
    rcases hx with h | h <;> (subst h; decide)
  split at hx
  · simp only [List.mem_cons, List.not_mem_nil, or_false] at hx
    rcases hx with h | h <;> (subst h; decide)
  split at hx
  · simp only [List.mem_cons, List.not_mem_nil, or_false] at hx
    rcases hx with h | h <;> (subst h; decide)
  split at hx
  · simp only [List.mem_cons, List.not_mem_nil, or_false] at hx
    rcases hx with h | h <;> (subst h; decide)
  split at hx
  · simp only [List.mem_cons] at hx
    rcases hx with h | h | h
    · subst h; decide
    · subst h; decide
    · exact hex4_ascii _ x h
  split at hx
  · rename_i h7f
    simp only [List.mem_cons, List.not_mem_nil, or_false] at hx
    subst hx
    omega
  split at hx
  · simp only [List.mem_cons] at hx
    rcases hx with h | h | h
    · subst h; decide
    · subst h; decide
    · exact hex4_ascii _ x h
  · rcases List.mem_cons.mp hx with h | h
    · subst h; decide
    rcases List.mem_cons.mp h with h | h
    · subst h; decide
    rcases List.mem_append.mp h with h | h
    · exact hex4_ascii _ x h
    rcases List.mem_cons.mp h with h | h
    · subst h; decide
    rcases List.mem_cons.mp h with h | h
    · subst h; decide
    · exact hex4_ascii _ x h

theorem intDigits_ascii (n : Int) : ∀ x ∈ intDigits n, x.toNat < 0x80 := by
  unfold intDigits
  split
  · intro x hx
    simp only [List.mem_cons] at hx
    rcases hx with h | h
    · subst h; decide
    · exact natToDigits_ascii _ x h
  · exact natToDigits_ascii _

theorem joinComma_ascii (parts : List (List Char))
    (h : ∀ p ∈ parts, ∀ x ∈ p, x.toNat < 0x80) :
    ∀ x ∈ joinComma parts, x.toNat < 0x80 := by
  induction parts with
  | nil =>
    intro x hx
    cases hx
  | cons p xs ih =>
    cases xs with
    | nil => exact h p (by simp)
    | cons q qs =>
      intro x hx
      have hx2 : x ∈ p ++ ',' :: ' ' :: joinComma (q :: qs) := hx
      rcases List.mem_append.mp hx2 with h1 | h1
      · exact h p (by simp) x h1
      rcases List.mem_cons.mp h1 with h1 | h1
      · subst h1; decide
      rcases List.mem_cons.mp h1 with h1 | h1
      · subst h1; decide
      · exact ih (fun r hr => h r (List.mem_cons_of_mem p hr)) x h1

theorem dumpsCell_ascii (cell : Cell) : ∀ x ∈ dumpsCell cell, x.toNat < 0x80 := by
  cases cell with
  | int n => exact intDigits_ascii n
  | str s =>
    intro x hx
    unfold dumpsCell at hx
    rcases List.mem_cons.mp hx with h | h
    · subst h; decide
    rcases List.mem_append.mp h with h | h
    · obtain ⟨l, hl, hxl⟩ := List.mem_flatten.mp h
      obtain ⟨c, _, hcl⟩ := List.mem_map.mp hl
      exact escapeChar_ascii c x (hcl ▸ hxl)
    · simp only [List.mem_cons, List.not_mem_nil, or_false] at h
      subst h
      decide

theorem dumpsRow_ascii (row : List Cell) :
    ∀ x ∈ dumpsRow row, x.toNat < 0x80 := by
  intro x hx
  unfold dumpsRow at hx
  rcases List.mem_cons.mp hx with h | h
  · subst h; decide
  rcases List.mem_append.mp h with h | h
  · refine joinComma_ascii _ ?_ x h
    intro p hp
    obtain ⟨cell, _, hcp⟩ := List.mem_map.mp hp
    exact hcp ▸ dumpsCell_ascii cell
  · simp only [List.mem_cons, List.not_mem_nil, or_false] at h
    subst h
    decide

theorem dumpsTable_ascii (t : PyTable) :
    ∀ x ∈ dumpsTable t, x.toNat < 0x80 := by
  intro x hx
  unfold dumpsTable at hx
  rcases List.mem_cons.mp hx with h | h
  · subst h; decide
  rcases List.mem_append.mp h with h | h
  · refine joinComma_ascii _ ?_ x h
    intro p hp
    obtain ⟨row, _, hrp⟩ := List.mem_map.mp hp
    exact hrp ▸ dumpsRow_ascii row
  · simp only [List.mem_cons, List.not_mem_nil, or_false] at h
    subst h
    decide

/-! ### Codec lemmas: every escaped character parses back -/

theorem hex4Val_hex4 (n : Nat) (h : n < 0x10000) (tail : List Char) :
    hex4Val (hex4 n ++ tail) = some (n, tail) := by
  show hex4Val (hexDigit (n / 4096 % 16) :: hexDigit (n / 256 % 16) ::
    hexDigit (n / 16 % 16) :: hexDigit (n % 16) :: tail) = some (n, tail)
  rw [hex4Val]
  rw [hexVal_hexDigit _ (Nat.mod_lt _ (by omega)),
    hexVal_hexDigit _ (Nat.mod_lt _ (by omega)),
    hexVal_hexDigit _ (Nat.mod_lt _ (by omega)),
    hexVal_hexDigit _ (Nat.mod_lt _ (by omega))]
  simp only []
  rw [show n / 4096 % 16 * 4096 + n / 256 % 16 * 256 +
    n / 16 % 16 * 16 + n % 16 = n from by omega]

theorem parseUEscape_bmp (v : Nat) (hle : v < 0x10000)
    (hs : v < 0xd800 ∨ 0xdfff < v) (tail : List Char) :
    parseUEscape (hex4 v ++ tail) = some (some (Char.ofNat v), tail) := by
  unfold parseUEscape
  rw [hex4Val_hex4 v hle]
  show parseUEscapeVal v tail = _
  unfold parseUEscapeVal
  rw [if_pos hs]

theorem parseUEscapeLow_hex4 (v lo : Nat)
    (hl1 : 0xdc00 ≤ lo) (hl2 : lo ≤ 0xdfff) (tail : List Char) :
    parseUEscapeLow v ('\\' :: 'u' :: (hex4 lo ++ tail)) =
      some (some (Char.ofNat
        (0x10000 + (v - 0xd800) * 1024 + (lo - 0xdc00))), tail) := by
  rw [parseUEscapeLow]
  rw [hex4Val_hex4 lo (by omega)]
  show (if 0xdc00 ≤ lo ∧ lo ≤ 0xdfff then _ else none) = _
  rw [if_pos ⟨hl1, hl2⟩]

theorem parseUEscape_surrogate (hi lo : Nat)
    (hh1 : 0xd800 ≤ hi) (hh2 : hi < 0xdc00)
    (hl1 : 0xdc00 ≤ lo) (hl2 : lo ≤ 0xdfff) (tail : List Char) :
    parseUEscape (hex4 hi ++ '\\' :: 'u' :: (hex4 lo ++ tail)) =
      some (some (Char.ofNat
        (0x10000 + (hi - 0xd800) * 1024 + (lo - 0xdc00))), tail) := by
  unfold parseUEscape
  rw [hex4Val_hex4 hi (by omega)]
  show parseUEscapeVal hi ('\\' :: 'u' :: (hex4 lo ++ tail)) = _
  unfold parseUEscapeVal
  rw [if_neg (by omega), if_pos (by omega)]
  exact parseUEscapeLow_hex4 hi lo hl1 hl2 tail

theorem parseStringChunk_u (rest : List Char) :
    parseStringChunk ('\\' :: 'u' :: rest) = parseUEscape rest := rfl

theorem chunk_esc_bs (c : Char) (tail : List Char)
    (h1 : ¬ c = '"') (h2 : ¬ c = '\\') (h3 : c.toNat = 8) :
    parseStringChunk (escapeChar c ++ tail) = some (some c, tail) := by
  have hc : Char.ofNat 8 = c := by rw [← h3, Char.ofNat_toNat]
  have he : escapeChar c = ['\\', 'b'] := by
    unfold escapeChar
    rw [if_neg h1, if_neg h2, if_pos h3]
  rw [he, ← hc]
  rfl

theorem chunk_esc_ff (c : Char) (tail : List Char)
    (h1 : ¬ c = '"') (h2 : ¬ c = '\\') (h3 : ¬ c.toNat = 8) (h4 : c.toNat = 12) :
    parseStringChunk (escapeChar c ++ tail) = some (some c, tail) := by
  have hc : Char.ofNat 12 = c := by rw [← h4, Char.ofNat_toNat]
  have he : escapeChar c = ['\\', 'f'] := by
    unfold escapeChar
    rw [if_neg h1, if_neg h2, if_neg h3, if_pos h4]
  rw [he, ← hc]
  rfl

theorem chunk_esc_ctrl (c : Char) (tail : List Char)
    (h1 : ¬ c = '"') (h2 : ¬ c = '\\') (h3 : ¬ c.toNat = 8) (h4 : ¬ c.toNat = 12)
    (h5 : ¬ c = '\n') (h6 : ¬ c = '\r') (h7 : ¬ c = '\t') (h8 : c.toNat < 0x20) :
    parseStringChunk (escapeChar c ++ tail) = some (some c, tail) := by
  have he : escapeChar c = '\\' :: 'u' :: hex4 c.toNat := by
    unfold escapeChar
    rw [if_neg h1, if_neg h2, if_neg h3, if_neg h4, if_neg h5, if_neg h6,
      if_neg h7, if_pos h8]
  rw [he]
  show parseUEscape (hex4 c.toNat ++ tail) = _
  rw [parseUEscape_bmp c.toNat (by omega) (Or.inl (by omega)),
    Char.ofNat_toNat]

theorem chunk_esc_print (c : Char) (tail : List Char)
    (h1 : ¬ c = '"') (h2 : ¬ c = '\\') (h3 : ¬ c.toNat = 8) (h4 : ¬ c.toNat = 12)
    (h5 : ¬ c = '\n') (h6 : ¬ c = '\r') (h7 : ¬ c = '\t') (h8 : ¬ c.toNat < 0x20)
    (h9 : c.toNat < 0x7f) :
    parseStringChunk (escapeChar c ++ tail) = some (some c, tail) := by
  have he : escapeChar c = [c] := by
    unfold escapeChar
    rw [if_neg h1, if_neg h2, if_neg h3, if_neg h4, if_neg h5, if_neg h6,
      if_neg h7, if_neg h8, if_pos h9]
  rw [he, List.singleton_append]
  rw [parseStringChunk]
  · rw [if_pos (by omega)]
  · exact h1
  · intro r hc _
    exact h2 hc
  · intro e r hc _
    exact h2 hc

theorem chunk_esc_bmp (c : Char) (tail : List Char)
    (h1 : ¬ c = '"') (h2 : ¬ c = '\\') (h3 : ¬ c.toNat = 8) (h4 : ¬ c.toNat = 12)
    (h5 : ¬ c = '\n') (h6 : ¬ c = '\r') (h7 : ¬ c = '\t') (h8 : ¬ c.toNat < 0x20)
    (h9 : ¬ c.toNat < 0x7f) (h10 : c.toNat < 0x10000) :
    parseStringChunk (escapeChar c ++ tail) = some (some c, tail) := by
  have hval : c.toNat < 0xd800 ∨ 0xdfff < c.toNat := by
    rcases char_valid_nat c with hv | hv
    · exact Or.inl hv
    · exact Or.inr hv.1
  have he : escapeChar c = '\\' :: 'u' :: hex4 c.toNat := by
    unfold escapeChar
    rw [if_neg h1, if_neg h2, if_neg h3, if_neg h4, if_neg h5, if_neg h6,
      if_neg h7, if_neg h8, if_neg h9, if_pos h10]
  rw [he]
  show parseUEscape (hex4 c.toNat ++ tail) = _
  rw [parseUEscape_bmp c.toNat h10 hval, Char.ofNat_toNat]

theorem chunk_esc_astral (c : Char) (tail : List Char)
    (h1 : ¬ c = '"') (h2 : ¬ c = '\\') (h3 : ¬ c.toNat = 8) (h4 : ¬ c.toNat = 12)
    (h5 : ¬ c = '\n') (h6 : ¬ c = '\r') (h7 : ¬ c = '\t') (h8 : ¬ c.toNat < 0x20)
    (h9 : ¬ c.toNat < 0x7f) (h10 : ¬ c.toNat < 0x10000) :
    parseStringChunk (escapeChar c ++ tail) = some (some c, tail) := by
  have hup : c.toNat < 0x110000 := by
    rcases char_valid_nat c with hv | hv
    · omega
    · exact hv.2
  have he : escapeChar c =
      '\\' :: 'u' :: hex4 (0xd800 + (c.toNat - 0x10000) / 1024) ++
        '\\' :: 'u' :: hex4 (0xdc00 + (c.toNat - 0x10000) % 1024) := by
    unfold escapeChar
    rw [if_neg h1, if_neg h2, if_neg h3, if_neg h4, if_neg h5, if_neg h6,
      if_neg h7, if_neg h8, if_neg h9, if_neg h10]
  rw [he]
  have hmod := Nat.mod_lt (c.toNat - 0x10000) (show 0 < 1024 by omega)
  simp only [List.cons_append, List.append_assoc]
  rw [parseStringChunk_u]
  rw [parseUEscape_surrogate _ _ (by omega) (by omega) (by omega) (by omega)]
  rw [show 0x10000 + (0xd800 + (c.toNat - 0x10000) / 1024 - 0xd800) * 1024 +
    (0xdc00 + (c.toNat - 0x10000) % 1024 - 0xdc00) = c.toNat from by omega]
  rw [Char.ofNat_toNat]

theorem parseStringChunk_escapeChar (c : Char) (tail : List Char) :
    parseStringChunk (escapeChar c ++ tail) = some (some c, tail) := by
  by_cases h1 : c = '"'
  · subst h1
    rfl
  by_cases h2 : c = '\\'
  · subst h2
    rfl
  by_cases h3 : c.toNat = 8
  · exact chunk_esc_bs c tail h1 h2 h3
  by_cases h4 : c.toNat = 12
  · exact chunk_esc_ff c tail h1 h2 h3 h4
  by_cases h5 : c = '\n'
  · subst h5
    rfl
  by_cases h6 : c = '\r'
  · subst h6
    rfl
  by_cases h7 : c = '\t'
  · subst h7
    rfl
  by_cases h8 : c.toNat < 0x20
  · exact chunk_esc_ctrl c tail h1 h2 h3 h4 h5 h6 h7 h8
  by_cases h9 : c.toNat < 0x7f
  · exact chunk_esc_print c tail h1 h2 h3 h4 h5 h6 h7 h8 h9
  by_cases h10 : c.toNat < 0x10000
  · exact chunk_esc_bmp c tail h1 h2 h3 h4 h5 h6 h7 h8 h9 h10
  · exact chunk_esc_astral c tail h1 h2 h3 h4 h5 h6 h7 h8 h9 h10

theorem parseStringLoop_escaped (l tail : List Char) :
    ∀ fuel, l.length < fuel →
      parseStringLoop fuel ((l.map escapeChar).flatten ++ '"' :: tail) =
        some (l, tail) := by
  induction l with
  | nil =>
    intro fuel hf
    cases fuel with
    | zero => omega
    | succ fuel =>
      simp only [List.map_nil, List.flatten_nil, List.nil_append]
      rw [parseStringLoop]
      rfl
  | cons c t ih =>
    intro fuel hf
    cases fuel with
    | zero => simp at hf
    | succ fuel =>
      simp only [List.map_cons, List.flatten_cons, List.append_assoc]
      rw [parseStringLoop, parseStringChunk_escapeChar]
      show Option.map (fun p => (c :: p.1, p.2))
        (parseStringLoop fuel ((List.map escapeChar t).flatten ++ '"' :: tail)) =
        some (c :: t, tail)
      rw [ih fuel (by simp only [List.length_cons] at hf; omega)]
      rfl

theorem escapeChar_length_pos (c : Char) : 0 < (escapeChar c).length := by
  unfold escapeChar
  repeat' split
  all_goals simp [hex4]

theorem flatten_escape_length (l : List Char) :
    l.length ≤ ((l.map escapeChar).flatten).length := by
  induction l with
  | nil => simp
  | cons c t ih =>
    simp only [List.map_cons, List.flatten_cons, List.length_append,
      List.length_cons]
    have := escapeChar_length_pos c
    omega

theorem parseStringBody_escaped (l tail : List Char) :
    parseStringBody ((l.map escapeChar).flatten ++ '"' :: tail) =
      some (l, tail) := by
  unfold parseStringBody
  apply parseStringLoop_escaped
  have h1 := flatten_escape_length l
  simp only [List.length_append, List.length_cons]
  omega

theorem parseCell_dumpsCell_str (s : String) (tail : List Char) :
    parseCell (dumpsCell (Cell.str s) ++ tail) = some (Cell.str s, tail) := by
  obtain ⟨d⟩ := s
  show parseCell (('"' :: ((d.map escapeChar).flatten ++ ['"'])) ++ tail) = _
  rw [List.cons_append, List.append_assoc, List.singleton_append]
  rw [parseCell]
  rw [parseStringBody_escaped d tail]
  rfl

theorem parseCell_digits (m : Nat) (tail : List Char)
    (htd : ∀ c, tail.head? = some c → c.isDigit = false)
    (htn : isNumCont tail = false) :
    parseCell (natToDigits m ++ tail) = some (Cell.int (Int.ofNat m), tail) := by
  rcases hd : natToDigits m with _ | ⟨c0, ds⟩
  · exact absurd hd (natToDigits_ne_nil m)
  have hdig : c0.isDigit = true :=
    natToDigits_all_digits m c0 (by rw [hd]; simp)
  rw [List.cons_append, parseCell]
  · have hp : parseNat ((c0 :: ds) ++ tail) = some (m, tail) := by
      rw [← hd, parseNat_natToDigits m tail htd]
    rw [List.cons_append] at hp
    rw [hp]
    simp only []
    rw [htn]
    simp
  · intro r hc
    injection hc with hc
    subst hc
    exact absurd hdig (by decide)
  · intro r hc
    injection hc with hc
    subst hc
    exact absurd hdig (by decide)

theorem parseCell_dumpsCell (cell : Cell) (tail : List Char)
    (htd : ∀ c, tail.head? = some c → c.isDigit = false)
    (htn : isNumCont tail = false) :
    parseCell (dumpsCell cell ++ tail) = some (cell, tail) := by
  cases cell with
  | str s => exact parseCell_dumpsCell_str s tail
  | int n =>
    rcases Int.lt_or_le n 0 with hneg | hpos
    · have hdc : dumpsCell (Cell.int n) = '-' :: natToDigits n.natAbs := by
        show intDigits n = _
        unfold intDigits
        rw [if_pos hneg]
      rw [hdc, List.cons_append, parseCell]
      rw [parseNat_natToDigits n.natAbs tail htd]
      simp only []
      rw [htn]
      simp only [Bool.false_eq_true, if_false]
      have hn : -(Int.ofNat n.natAbs) = n := by
        rw [Int.ofNat_eq_natCast]
        omega
      rw [hn]
    · have hdc : dumpsCell (Cell.int n) = natToDigits n.toNat := by
        show intDigits n = _
        unfold intDigits
        rw [if_neg (by omega)]
      rw [hdc, parseCell_digits n.toNat tail htd htn]
      have hn : Int.ofNat n.toNat = n := by
        rw [Int.ofNat_eq_natCast]
        omega
      rw [hn]

theorem natToDigits_toNat_bounds (n : Nat) :
    ∀ c ∈ natToDigits n, 48 ≤ c.toNat ∧ c.toNat ≤ 57 := by
  induction n using natToDigits.induct with
  | case1 n h =>
    intro c hc
    unfold natToDigits at hc
    rw [if_pos h] at hc
    simp only [List.mem_cons, List.not_mem_nil, or_false] at hc
    subst hc
    rw [digitChar_toNat n h]
    omega
  | case2 n h ih =>
    intro c hc
    unfold natToDigits at hc
    rw [if_neg h] at hc
    rcases List.mem_append.mp hc with hc | hc
    · exact ih c hc
    · simp only [List.mem_cons, List.not_mem_nil, or_false] at hc
      subst hc
      rw [digitChar_toNat _ (Nat.mod_lt _ (by omega))]
      omega

theorem toNat_injective_ne (c d : Char) (h : ¬ c.toNat = d.toNat) : ¬ c = d := by
  intro he
  subst he
  exact h rfl

/-- Every serialized cell starts with a character that is neither JSON
whitespace nor a closing bracket, so array parsing never skips into or
past it. -/
theorem dumpsCell_head (cell : Cell) :
    ∃ c cs, dumpsCell cell = c :: cs ∧ isJsonWs c = false ∧ ¬ c = ']' := by
  cases cell with
  | str s =>
    refine ⟨'"', (s.data.map escapeChar).flatten ++ ['"'], rfl, by decide, by decide⟩
  | int n =>
    show ∃ c cs, intDigits n = c :: cs ∧ _
    unfold intDigits
    split
    · exact ⟨'-', natToDigits n.natAbs, rfl, by decide, by decide⟩
    · rcases hd : natToDigits n.toNat with _ | ⟨c0, ds⟩
      · exact absurd hd (natToDigits_ne_nil _)
      · have hb := natToDigits_toNat_bounds n.toNat c0 (by rw [hd]; simp)
        refine ⟨c0, ds, rfl, ?_, ?_⟩
        · unfold isJsonWs
          have h32 : ¬ c0 = ' ' := toNat_injective_ne _ _ (by
            rw [show (' ' : Char).toNat = 32 from rfl]; omega)
          have h9 : ¬ c0 = '\t' := toNat_injective_ne _ _ (by
            rw [show ('\t' : Char).toNat = 9 from rfl]; omega)
          have h10 : ¬ c0 = '\n' := toNat_injective_ne _ _ (by
            rw [show ('\n' : Char).toNat = 10 from rfl]; omega)
          have h13 : ¬ c0 = '\r' := toNat_injective_ne _ _ (by
            rw [show ('\r' : Char).toNat = 13 from rfl]; omega)
          simp [h32, h9, h10, h13]
        · exact toNat_injective_ne _ _ (by
            rw [show (']' : Char).toNat = 93 from rfl]; omega)

/-- The input seen by `parseSeqRest` after each parsed element: either the
closing bracket or a `", "` separator and the next serialized element. -/
def sepTail (de : α → List Char) (tail : List Char) : List α → List Char
  | [] => ']' :: tail
  | a :: as => ',' :: ' ' :: (de a ++ sepTail de tail as)

theorem joinComma_sepTail (de : α → List Char) (tail : List Char)
    (a : α) (as : List α) :
    joinComma ((a :: as).map de) ++ ']' :: tail = de a ++ sepTail de tail as := by
  induction as generalizing a with
  | nil => rfl
  | cons b bs ih =>
    show (de a ++ ',' :: ' ' :: joinComma ((b :: bs).map de)) ++ ']' :: tail = _
    rw [List.append_assoc, List.cons_append, List.cons_append]
    rw [show joinComma ((b :: bs).map de) ++ ']' :: tail =
      de b ++ sepTail de tail bs from ih b]
    rfl

theorem skipWs_cons_not_ws (c : Char) (r : List Char) (h : isJsonWs c = false) :
    skipWs (c :: r) = c :: r := by
  unfold skipWs
  rw [List.dropWhile_cons, h]
  simp

theorem skipWs_cons_ws (c : Char) (r : List Char) (h : isJsonWs c = true) :
    skipWs (c :: r) = skipWs r := by
  unfold skipWs
  rw [List.dropWhile_cons, h]
  simp

theorem parseSeqRest_sep (pe : List Char → Option (α × List Char))
    (de : α → List Char) (tail : List Char)
    (hpe : ∀ a (rest : List Char),
      pe (de a ++ ',' :: ' ' :: rest) = some (a, ',' :: ' ' :: rest))
    (hpe2 : ∀ a (rest : List Char),
      pe (de a ++ ']' :: rest) = some (a, ']' :: rest))
    (hhead : ∀ a, ∃ c cs, de a = c :: cs ∧ isJsonWs c = false ∧ ¬ c = ']') :
    ∀ (l : List α) (fuel : Nat), l.length < fuel →
      parseSeqRest pe fuel (sepTail de tail l) = some (l, tail) := by
  intro l
  induction l with
  | nil =>
    intro fuel hf
    cases fuel with
    | zero => omega
    | succ f =>
      rw [parseSeqRest]
      rw [show sepTail de tail ([] : List α) = ']' :: tail from rfl]
      rw [skipWs_cons_not_ws ']' tail (by decide)]
      rfl
  | cons a as ih =>
    intro fuel hf
    cases fuel with
    | zero => simp at hf
    | succ f =>
      have hlen : as.length < f := by
        simp only [List.length_cons] at hf
        omega
      rw [show sepTail de tail (a :: as) =
        ',' :: ' ' :: (de a ++ sepTail de tail as) from rfl]
      rw [parseSeqRest]
      rw [skipWs_cons_not_ws ',' _ (by decide)]
      show (match pe (skipWs (' ' :: (de a ++ sepTail de tail as))) with
        | some p =>
          (match parseSeqRest pe f p.2 with
            | some q => some (p.1 :: q.1, q.2)
            | none => none)
        | none => none) = some (a :: as, tail)
      rw [skipWs_cons_ws ' ' _ (by decide)]
      obtain ⟨c, cs, hde, hws, _⟩ := hhead a
      rw [hde, List.cons_append, skipWs_cons_not_ws c _ hws,
        ← List.cons_append, ← hde]
      have hrest := ih f hlen
      cases has : as with
      | nil =>
        rw [has] at hrest
        have hrest2 : parseSeqRest pe f (']' :: tail) = some ([], tail) :=
          hrest
        rw [show sepTail de tail ([] : List α) = ']' :: tail from rfl,
          hpe2 a tail]
        simp only []
        rw [hrest2]
      | cons b bs =>
        rw [has] at hrest
        have hrest2 : parseSeqRest pe f
            (',' :: ' ' :: (de b ++ sepTail de tail bs)) =
            some (b :: bs, tail) := hrest
        rw [show sepTail de tail (b :: bs) =
          ',' :: ' ' :: (de b ++ sepTail de tail bs) from rfl,
          hpe a (de b ++ sepTail de tail bs)]
        simp only []
        rw [hrest2]

theorem parseSeq_join (pe : List Char → Option (α × List Char))
    (de : α → List Char) (tail : List Char)
    (hpe : ∀ a (rest : List Char),
      pe (de a ++ ',' :: ' ' :: rest) = some (a, ',' :: ' ' :: rest))
    (hpe2 : ∀ a (rest : List Char),
      pe (de a ++ ']' :: rest) = some (a, ']' :: rest))
    (hhead : ∀ a, ∃ c cs, de a = c :: cs ∧ isJsonWs c = false ∧ ¬ c = ']') :
    ∀ (l : List α) (fuel : Nat), l.length ≤ fuel →
      parseSeq pe fuel (joinComma (l.map de) ++ ']' :: tail) =
        some (l, tail) := by
  intro l fuel hf
  cases l with
  | nil =>
    show parseSeq pe fuel (']' :: tail) = _
    unfold parseSeq
    rw [skipWs_cons_not_ws ']' tail (by decide)]
    rfl
  | cons a as =>
    have hlen : as.length < fuel := by
      simp only [List.length_cons] at hf
      omega
    rw [joinComma_sepTail]
    unfold parseSeq
    obtain ⟨c, cs, hde, hws, hnb⟩ := hhead a
    rw [hde, List.cons_append, skipWs_cons_not_ws c _ hws]
    split
    · rename_i heq
      injection heq with hc _
      exact absurd hc hnb
    · rw [← List.cons_append, ← hde]
      have hrest := parseSeqRest_sep pe de tail hpe hpe2 hhead as fuel hlen
      cases has : as with
      | nil =>
        rw [has] at hrest
        have hrest2 : parseSeqRest pe fuel (']' :: tail) = some ([], tail) :=
          hrest
        rw [show sepTail de tail ([] : List α) = ']' :: tail from rfl,
          hpe2 a tail]
        simp only []
        rw [hrest2]
      | cons b bs =>
        rw [has] at hrest
        have hrest2 : parseSeqRest pe fuel
            (',' :: ' ' :: (de b ++ sepTail de tail bs)) =
            some (b :: bs, tail) := hrest
        rw [show sepTail de tail (b :: bs) =
          ',' :: ' ' :: (de b ++ sepTail de tail bs) from rfl,
          hpe a (de b ++ sepTail de tail bs)]
        simp only []
        rw [hrest2]

theorem joinComma_length_ge (ps : List (List Char))
    (h : ∀ p ∈ ps, p ≠ []) : ps.length ≤ (joinComma ps).length := by
  induction ps with
  | nil => simp
  | cons x xs ih =>
    cases xs with
    | nil =>
      have hx := h x (by simp)
      cases x with
      | nil => exact absurd rfl hx
      | cons c cs => simp [joinComma]
    | cons y ys =>
      rw [show joinComma (x :: y :: ys) =
        x ++ ',' :: ' ' :: joinComma (y :: ys) from rfl]
      have hx := h x (by simp)
      have hlen : 1 ≤ x.length := by
        cases x with
        | nil => exact absurd rfl hx
        | cons c cs => simp
      have := ih (fun p hp => h p (by simp [hp]))
      simp only [List.length_cons, List.length_append] at this ⊢
      omega

theorem parseCell_dumpsCell_comma (cell : Cell) (rest : List Char) :
    parseCell (dumpsCell cell ++ ',' :: ' ' :: rest) =
      some (cell, ',' :: ' ' :: rest) := by
  apply parseCell_dumpsCell
  · intro c hc
    injection hc with hc
    subst hc
    decide
  · rfl

theorem parseCell_dumpsCell_close (cell : Cell) (rest : List Char) :
    parseCell (dumpsCell cell ++ ']' :: rest) =
      some (cell, ']' :: rest) := by
  apply parseCell_dumpsCell
  · intro c hc
    injection hc with hc
    subst hc
    decide
  · rfl

theorem dumpsCell_ne_nil (cell : Cell) : dumpsCell cell ≠ [] := by
  obtain ⟨c, cs, hd, _, _⟩ := dumpsCell_head cell
  rw [hd]
  simp

theorem parseRow_dumpsRow (row : List Cell) (tail : List Char) :
    parseRow (dumpsRow row ++ tail) = some (row, tail) := by
  show parseRow (('[' :: (joinComma (row.map dumpsCell) ++ [']'])) ++ tail) = _
  rw [List.cons_append, List.append_assoc, List.singleton_append]
  rw [parseRow]
  apply parseSeq_join parseCell dumpsCell tail
    parseCell_dumpsCell_comma parseCell_dumpsCell_close dumpsCell_head
  have hj : row.length ≤ (joinComma (row.map dumpsCell)).length := by
    have := joinComma_length_ge (row.map dumpsCell) (by
      intro p hp
      obtain ⟨cell, _, hcp⟩ := List.mem_map.mp hp
      rw [← hcp]
      exact dumpsCell_ne_nil cell)
    simpa using this
  simp only [List.length_append, List.length_cons]
  omega

theorem dumpsRow_head (row : List Cell) :
    ∃ c cs, dumpsRow row = c :: cs ∧ isJsonWs c = false ∧ ¬ c = ']' :=
  ⟨'[', joinComma (row.map dumpsCell) ++ [']'], rfl, by decide, by decide⟩

theorem dumpsRow_ne_nil (row : List Cell) : dumpsRow row ≠ [] := by
  simp [dumpsRow]

theorem pyLoads_dumpsTable (t : PyTable) :
    pyLoads (String.mk (dumpsTable t)) = some t := by
  unfold pyLoads
  show (match skipWs (dumpsTable t) with
    | '[' :: rest =>
      (match parseSeq parseRow (rest.length + 1) rest with
        | some (tt, rest2) => if skipWs rest2 = [] then some tt else none
        | none => none)
    | _ => none) = some t
  rw [show dumpsTable t =
    '[' :: (joinComma (t.map dumpsRow) ++ [']']) from rfl]
  rw [skipWs_cons_not_ws '[' _ (by decide)]
  simp only []
  rw [show joinComma (t.map dumpsRow) ++ [']'] =
    joinComma (t.map dumpsRow) ++ ']' :: ([] : List Char) from rfl]
  rw [parseSeq_join parseRow dumpsRow ([] : List Char)
    (fun row rest => parseRow_dumpsRow row (',' :: ' ' :: rest))
    (fun row rest => parseRow_dumpsRow row (']' :: rest))
    dumpsRow_head t _ ?_]
  · rfl
  · have := joinComma_length_ge (t.map dumpsRow) (by
      intro p hp
      obtain ⟨row, _, hcp⟩ := List.mem_map.mp hp
      rw [← hcp]
      exact dumpsRow_ne_nil row)
    simp only [List.length_append, List.length_cons, List.length_map] at this ⊢
    omega

/-- C3: decoding is the exact inverse of encoding.  For every table of
integer and string cells - including strings with whitespace or symbolic
characters, which pass through the `json.dumps` escaping machinery - the
decode pipeline of line 352 (`json.loads` after `b64decode`) applied to
the encode pipeline of lines 173-174 (`b64encode` of `json.dumps`)
returns exactly the original table. -/
theorem c3_roundtrip (t : PyTable) : pyDecode (pyEncode t) = some t := by
  unfold pyDecode pyEncode pyB64Decode
  have hbytes : ∀ b ∈ utf8Encode (String.mk (dumpsTable t)), b < 256 :=
    utf8Encode_bytes_lt _
  rw [show (String.mk (b64encodeBytes
      (utf8Encode (String.mk (dumpsTable t))))).data =
    b64encodeBytes (utf8Encode (String.mk (dumpsTable t))) from rfl]
  rw [b64encode_filter _ hbytes, b64decode_encode _ hbytes]
  simp only [Option.some_bind]
  rw [utf8Decode_encode_ascii (String.mk (dumpsTable t))
    (fun c hc => dumpsTable_ascii t c hc)]
  simp only [Option.some_bind]
  exact pyLoads_dumpsTable t

/-- C8 counterexample: a well-formed artifact of the wrong shape does not
fail.  The string is the base64 of the JSON text `[[0]]`, a table whose
single row has width 1 - an impossible shape for any organization (the
code itself asserts width `2 + len(fields)` at creation time, which is at
least 2).  The decode pipeline of line 352 returns this wrong-shape table
as-is instead of failing with a `CorruptOrganizationFile` error: no shape
validation of any kind exists in the decode path. -/
theorem c8_counterexample :
    pyDecode (String.mk ['W', '1', 's', 'w', 'X', 'V', '0', '=']) =
      some [[Cell.int 0]] ∧
    ∃ row, (some [[Cell.int 0]]).get rfl = [row] ∧ row.length = 1 := by
  constructor
  · decide
  · exact ⟨[Cell.int 0], rfl, rfl⟩

/-- C8 (amended): the decode operation of line 352 performs no validation
and raises no named error.  A structurally malformed payload makes the
pipeline fail as an uncaught exception (modelled `none`), with no
`CorruptOrganizationFile` or any other deliberate error: the first
artifact is the base64 of `not json` (an uncaught
`json.JSONDecodeError`), the second is base64 text with invalid padding
(an uncaught `binascii.Error` before JSON parsing even starts). -/
theorem c8_decode_no_named_error :
    pyDecode (String.mk
      ['b', 'm', '9', '0', 'I', 'G', 'p', 'z', 'b', '2', '4', '=']) = none ∧
    pyDecode (String.mk ['Y', 'Q']) = none := by
  constructor
  · decide
  · decide

end Paranoia
